import Mathlib

/-!
# Verification of the SPC / capability statistical engine

Shallow embedding of the Individuals-Moving-Range (I-MR) statistical core of
the tightening project:

* `compute_imr_limits`  (analysis/spc.py)        - control limits per group
* `score_imr_points`    (analysis/spc.py)        - scoring of evaluation points
* `build_spc_alerts_from_points` (analysis/spc.py) - alert aggregation
* `compute_capability_v1` (analysis/capability.py) - capability indices

Modelling conventions:

* pandas floats are modelled as exact rationals `ℚ`; a missing value
  (`NaN` / `pd.NA` / `NaT`) is `Option.none`.  IEEE propagation rules that the
  code relies on (`NaN` comparisons are false, `0.0 * NaN = NaN`, division by
  `NA` gives `NA`) are made explicit in the option-valued operations below.
* a `DataFrame` is a list of typed rows plus an explicit list of column
  names (`cols`); the column list is what the `need`/`missing` validation of
  the source inspects.  A `None` input frame behaves exactly like an empty
  one in the source (both are caught by `df is None or df.empty`), so it is
  identified with the empty frame here.
* `raise KeyError(...)` is modelled as `Except.error missing`.
* group keys are `ℕ`, parsed timestamps are `ℤ` (`pd.to_datetime` with
  `errors="coerce"` is already folded into the `Option` typing of the
  timestamp field).
* the stable `kind="mergesort"` sort of pandas is modelled by a stable
  insertion sort on the lexicographic `(key, time)` order; both produce the
  same list, namely the unique stable ordering.
* arithmetic is exact: IEEE rounding is not modelled.  Properties that hold
  or fail only because of floating-point rounding (notably a positive
  two-pass standard deviation on a constant series whose moving ranges are
  exactly zero) cannot be stated in this embedding.
-/

/-- Unbiasing constant d2 for subgroup size 2 (`D2_MR2 = 1.128`). -/
def D2_MR2 : ℚ := 1128 / 1000

/-- Control-chart constant D3 for subgroup size 2 (`D3_MR2 = 0.0`). -/
def D3_MR2 : ℚ := 0

/-- Control-chart constant D4 for subgroup size 2 (`D4_MR2 = 3.267`). -/
def D4_MR2 : ℚ := 3267 / 1000

/-- Default key column name. -/
def key_col : String := "STEP_ID"

/-- Default timestamp column name. -/
def time_col : String := "DateTime"

/-- Default value column name. -/
def value_col : String := "FinalTorque"

/-- Default lower-tolerance column name. -/
def lsl_col : String := "TorqueMinTolerance"

/-- Default upper-tolerance column name. -/
def usl_col : String := "TorqueMaxTolerance"

/-- `[c for c in need if c not in df.columns]`. -/
def missingFrom (need cols : List String) : List String :=
  need.filter (fun c => !cols.contains c)

/-- A raw input row of the baseline / evaluation tables: any of the three
used fields may be missing (`NaN`); an unparseable timestamp is already
`none` (the `pd.to_datetime(..., errors="coerce")` step). -/
structure RawRow where
  key : Option ℕ
  time : Option ℤ
  value : Option ℚ
deriving DecidableEq, Repr, Inhabited

/-- A row that survived `dropna()` on key/time/value. -/
structure CleanRow where
  key : ℕ
  time : ℤ
  value : ℚ
deriving DecidableEq, Repr, Inhabited

/-- `df[[key, time, value]].dropna()` followed by timestamp coercion and
`dropna(subset=[time])`: keep exactly the rows with all three fields
present. -/
def cleanRows (rows : List RawRow) : List CleanRow :=
  rows.filterMap fun r =>
    match r.key, r.time, r.value with
    | some k, some t, some v => some ⟨k, t, v⟩
    | _, _, _ => none

/-- An input frame: explicit column list (for the `need`-columns validation)
plus the typed rows. -/
structure InFrame where
  cols : List String
  rows : List RawRow
deriving DecidableEq, Repr, Inhabited

/-- Stable insertion of one element: `x` is placed in front of the first
element `y` with `le x y`. -/
def ordInsert {α : Type} (le : α → α → Bool) (x : α) : List α → List α
  | [] => [x]
  | y :: ys => if le x y then x :: y :: ys else y :: ordInsert le x ys

/-- Stable sort (same output as the pandas `kind="mergesort"` stable sort
for a total preorder `le`). -/
def stableSort {α : Type} (le : α → α → Bool) : List α → List α
  | [] => []
  | x :: xs => ordInsert le x (stableSort le xs)

/-- Lexicographic `(key, time)` order used by
`sort_values([key_col, time_col], kind="mergesort")`. -/
def rowLE (a b : CleanRow) : Bool :=
  decide (a.key < b.key) || (a.key == b.key && decide (a.time ≤ b.time))

/-- `x.sort_values([key_col, time_col], kind="mergesort")`. -/
def sortRows (xs : List CleanRow) : List CleanRow :=
  stableSort rowLE xs

/-- `x.groupby(key).diff().abs()`: attach to every row the absolute
difference to the previous row of the same group (`none` for the first row
of a group, pandas `NaN`).  The accumulator holds the last seen value per
key. -/
def addMR {α : Type} (key : α → ℕ) (val : α → ℚ) :
    List (ℕ × ℚ) → List α → List (α × Option ℚ)
  | _, [] => []
  | acc, r :: rs =>
    (r, (acc.lookup (key r)).map (fun p => |val r - p|)) ::
      addMR key val ((key r, val r) :: acc) rs

/-- Keys in order of first appearance (`groupby(key, sort=False)`). -/
def keysInOrder {α : Type} (key : α → ℕ) : List ℕ → List α → List ℕ
  | _, [] => []
  | seen, r :: rs =>
    if seen.contains (key r) then keysInOrder key seen rs
    else key r :: keysInOrder key (key r :: seen) rs

/-- Mean of a list of rationals (callers only apply it to non-empty lists:
pandas group means are taken over non-empty groups). -/
def qmean (l : List ℚ) : ℚ :=
  l.sum / l.length

/-- pandas mean with NaN-result on an all-NaN column: `none` when there is
no defined entry. -/
def omean (l : List ℚ) : Option ℚ :=
  if l.isEmpty then none else some (qmean l)

/-- Aggregate of `g.agg(N=..., Xbar=..., MRbar=...)` for one group. -/
structure ImrAgg where
  key : ℕ
  N : ℕ
  Xbar : ℚ
  MRbar : Option ℚ
deriving DecidableEq, Repr

/-- Build the `N/Xbar/MRbar` aggregate of one group (the rows of the group
paired with their moving ranges). -/
def mkImrAgg (k : ℕ) (grp : List (CleanRow × Option ℚ)) : ImrAgg :=
  { key := k
    N := grp.length
    Xbar := qmean (grp.map (fun p => p.1.value))
    MRbar := omean (grp.filterMap (fun p => p.2)) }

/-- One record of the limits table
`[STEP_ID, N, Xbar, MRbar, Sigma, UCL, LCL, UCL_MR, LCL_MR]`.  Every
derived field is `Option`-valued because it is `NaN` whenever `MRbar` is
`NaN` (group with a single point): in floats `NaN/1.128`, `Xbar + 3*NaN`,
`3.267*NaN` and `0.0*NaN` are all `NaN`. -/
structure LimitRec where
  key : ℕ
  N : ℕ
  Xbar : ℚ
  MRbar : Option ℚ
  Sigma : Option ℚ
  UCL : Option ℚ
  LCL : Option ℚ
  UCL_MR : Option ℚ
  LCL_MR : Option ℚ
deriving DecidableEq, Repr

/-- Derived columns of the limits table:
`Sigma = MRbar / D2`, `UCL/LCL = Xbar ± 3 Sigma`,
`UCL_MR = D4 * MRbar`, `LCL_MR = D3 * MRbar`. -/
def extendLimits (a : ImrAgg) : LimitRec :=
  let sigma := a.MRbar.map (fun m => m / D2_MR2)
  { key := a.key
    N := a.N
    Xbar := a.Xbar
    MRbar := a.MRbar
    Sigma := sigma
    UCL := sigma.map (fun s => a.Xbar + 3 * s)
    LCL := sigma.map (fun s => a.Xbar - 3 * s)
    UCL_MR := a.MRbar.map (fun m => D4_MR2 * m)
    LCL_MR := a.MRbar.map (fun m => D3_MR2 * m) }

/-- Sort, attach moving ranges, and aggregate per group (in order of first
appearance, `sort=False`). -/
def imrAggs (xs : List CleanRow) : List ImrAgg :=
  let s := sortRows xs
  let withMR := addMR CleanRow.key CleanRow.value [] s
  (keysInOrder CleanRow.key [] s).map
    (fun k => mkImrAgg k (withMR.filter (fun p => p.1.key == k)))

/-- Core of `compute_imr_limits` on cleaned rows: aggregate, filter out
groups with `N < min_points`, derive the limit columns. -/
def limitsCore (xs : List CleanRow) (min_points : ℕ) : List LimitRec :=
  ((imrAggs xs).filter (fun a => decide (min_points ≤ a.N))).map extendLimits

/-- Required columns of `compute_imr_limits` and `score_imr_points`
(`need = [key_col, time_col, value_col]`). -/
def imrRequiredCols : List String := [key_col, time_col, value_col]

/-- `compute_imr_limits` (analysis/spc.py): empty/None input gives the empty
table; otherwise missing required columns raise; otherwise clean, sort,
compute moving ranges, aggregate per STEP, reject groups with
`N < min_points`, and derive the I-MR limit columns. -/
def compute_imr_limits (f : InFrame) (min_points : ℕ) :
    Except (List String) (List LimitRec) :=
  if f.rows.isEmpty then .ok []
  else
    let missing := missingFrom imrRequiredCols f.cols
    if missing.isEmpty then .ok (limitsCore (cleanRows f.rows) min_points)
    else .error missing

/-- The final rule of a scored point: `OK | I_3SIGMA | MR_3SIGMA`. -/
inductive Rule where
  | OK : Rule
  | I_3SIGMA : Rule
  | MR_3SIGMA : Rule
deriving DecidableEq, Repr, Inhabited

/-- The pandas comparison `a > b` on float series: `False` whenever either
side is `NaN`. -/
def oGT : Option ℚ → Option ℚ → Bool
  | some a, some b => decide (b < a)
  | _, _ => false

/-- The pandas comparison `a < b` on float series: `False` whenever either
side is `NaN`. -/
def oLT : Option ℚ → Option ℚ → Bool
  | some a, some b => decide (a < b)
  | _, _ => false

/-- One row of the scored-points table: the evaluation row, the joined limit
columns, and the derived `MR/z/is_ooc_i/is_ooc_mr/rule/is_alert` columns. -/
structure ScoredRow where
  key : ℕ
  time : ℤ
  value : ℚ
  N : ℕ
  Xbar : ℚ
  Sigma : Option ℚ
  UCL : Option ℚ
  LCL : Option ℚ
  MRbar : Option ℚ
  UCL_MR : Option ℚ
  LCL_MR : Option ℚ
  MR : Option ℚ
  z : Option ℚ
  is_ooc_i : Bool
  is_ooc_mr : Bool
  rule : Rule
  is_alert : Bool
deriving DecidableEq, Repr

/-- Score one merged row:
`z = (value - Xbar) / Sigma.replace(0, NA)` (`NA` when `Sigma` is `NaN` or
exactly 0), `is_ooc_i = value > UCL or value < LCL`,
`is_ooc_mr = (MR > UCL_MR).fillna(False)`, rule assignment giving
`MR_3SIGMA` priority over `I_3SIGMA`, `is_alert = is_ooc_i or is_ooc_mr`. -/
def mkScored (r : CleanRow) (L : LimitRec) (mr : Option ℚ) : ScoredRow :=
  let z : Option ℚ :=
    match L.Sigma with
    | none => none
    | some s => if s = 0 then none else some ((r.value - L.Xbar) / s)
  let ooc_i := oGT (some r.value) L.UCL || oLT (some r.value) L.LCL
  let ooc_mr := oGT mr L.UCL_MR
  { key := r.key
    time := r.time
    value := r.value
    N := L.N
    Xbar := L.Xbar
    Sigma := L.Sigma
    UCL := L.UCL
    LCL := L.LCL
    MRbar := L.MRbar
    UCL_MR := L.UCL_MR
    LCL_MR := L.LCL_MR
    MR := mr
    z := z
    is_ooc_i := ooc_i
    is_ooc_mr := ooc_mr
    rule := if ooc_mr then Rule.MR_3SIGMA else if ooc_i then Rule.I_3SIGMA else Rule.OK
    is_alert := ooc_i || ooc_mr }

/-- Core of `score_imr_points` on cleaned evaluation rows: stable sort,
inner join on the key to the limits table, moving ranges over the joined
frame, and row scoring. -/
def scoreCore (pts : List CleanRow) (limits : List LimitRec) : List ScoredRow :=
  let s := sortRows pts
  let merged :=
    s.flatMap (fun r => (limits.filter (fun L => L.key == r.key)).map (fun L => (r, L)))
  (addMR (fun p : CleanRow × LimitRec => p.1.key) (fun p => p.1.value) [] merged).map
    (fun q => mkScored q.1.1 q.1.2 q.2)

/-- `score_imr_points` (analysis/spc.py): empty/None evaluation frame or
empty/None limits table give the empty result (checked before anything
else); then missing required evaluation columns raise; otherwise clean,
sort, join and score. -/
def score_imr_points (f : InFrame) (limits : List LimitRec) :
    Except (List String) (List ScoredRow) :=
  if f.rows.isEmpty then .ok []
  else if limits.isEmpty then .ok []
  else
    let missing := missingFrom imrRequiredCols f.cols
    if missing.isEmpty then .ok (scoreCore (cleanRows f.rows) limits)
    else .error missing

/-- A row of the scored-points table as consumed by the alert aggregator:
only `STEP_ID`, `DateTime`, `is_alert` and `rule` are inspected.  The
timestamp may be `NaT` (the aggregator re-coerces it and does not drop such
rows). -/
structure SPoint where
  key : ℕ
  time : Option ℤ
  is_alert : Bool
  rule : Rule
deriving DecidableEq, Repr, Inhabited

/-- Input frame of the alert aggregator. -/
structure ScoredFrame where
  cols : List String
  rows : List SPoint
deriving DecidableEq, Repr, Inhabited

/-- One record of the alerts table. -/
structure AlertRec where
  key : ℕ
  n_points : ℕ
  n_alerts : ℕ
  first_alert : Option ℤ
  last_alert : Option ℤ
  I_3SIGMA : ℕ
  MR_3SIGMA : ℕ
deriving DecidableEq, Repr

/-- The alerts table: the explicit column list matters because the empty
branch of the source returns a frame without the per-rule columns. -/
structure AlertTable where
  cols : List String
  recs : List AlertRec
deriving DecidableEq, Repr

/-- pandas `Series.min` over the defined entries (`NaN` when none). -/
def listMin? (l : List ℤ) : Option ℤ :=
  l.foldl (fun acc t => match acc with | none => some t | some m => some (min m t)) none

/-- pandas `Series.max` over the defined entries (`NaN` when none). -/
def listMax? (l : List ℤ) : Option ℤ :=
  l.foldl (fun acc t => match acc with | none => some t | some m => some (max m t)) none

/-- String name of a rule value (the pivot column it creates). -/
def ruleName : Rule → String
  | Rule.OK => "OK"
  | Rule.I_3SIGMA => "I_3SIGMA"
  | Rule.MR_3SIGMA => "MR_3SIGMA"

/-- Columns of the aggregate before the rule breakdown
(`STEP_ID, n_points, n_alerts, first_alert, last_alert`); also the full
column set of the empty-input branch. -/
def alertBaseCols : List String :=
  [key_col, "n_points", "n_alerts", "first_alert", "last_alert"]

/-- Aggregate one group: row count, alert count, first/last alert timestamp
(over the alert rows only, skipping `NaT`), and the per-rule alert counts
(the `pivot_table(..., aggfunc="size", fill_value=0)` cell values). -/
def mkAlertRec (k : ℕ) (grp : List SPoint) : AlertRec :=
  let alerts := grp.filter (fun r => r.is_alert)
  { key := k
    n_points := grp.length
    n_alerts := grp.countP (fun r => r.is_alert)
    first_alert := listMin? (alerts.filterMap (fun r => r.time))
    last_alert := listMax? (alerts.filterMap (fun r => r.time))
    I_3SIGMA := alerts.countP (fun r => r.rule == Rule.I_3SIGMA)
    MR_3SIGMA := alerts.countP (fun r => r.rule == Rule.MR_3SIGMA) }

/-- Columns created by
`df[df.is_alert == 1].pivot_table(columns="rule", aggfunc="size")`: one per
rule value occurring among the alert rows, in sorted column order
(`"I_3SIGMA" < "MR_3SIGMA" < "OK"`). -/
def pivotRuleCols (alerts : List SPoint) : List String :=
  (if alerts.any (fun r => r.rule == Rule.I_3SIGMA) then ["I_3SIGMA"] else []) ++
  (if alerts.any (fun r => r.rule == Rule.MR_3SIGMA) then ["MR_3SIGMA"] else []) ++
  (if alerts.any (fun r => r.rule == Rule.OK) then ["OK"] else [])

/-- Core of `build_spc_alerts_from_points` on a non-empty frame: per-group
aggregation, retain groups with `n_alerts > 0`, merge the per-rule pivot,
then append each of `I_3SIGMA`/`MR_3SIGMA` as a zero column if the pivot did
not produce it. -/
def aggCore (rows : List SPoint) : AlertTable :=
  let recs :=
    ((keysInOrder SPoint.key [] rows).map
        (fun k => mkAlertRec k (rows.filter (fun r => r.key == k)))).filter
      (fun a => decide (0 < a.n_alerts))
  let cols0 := alertBaseCols ++ pivotRuleCols (rows.filter (fun r => r.is_alert))
  let cols1 := if cols0.contains "I_3SIGMA" then cols0 else cols0 ++ ["I_3SIGMA"]
  let cols2 := if cols1.contains "MR_3SIGMA" then cols1 else cols1 ++ ["MR_3SIGMA"]
  { cols := cols2, recs := recs }

/-- Required columns of the alert aggregator
(`need = [key_col, time_col, "is_alert", "rule"]`). -/
def alertsRequiredCols : List String := [key_col, time_col, "is_alert", "rule"]

/-- `build_spc_alerts_from_points` (analysis/spc.py): empty/None input gives
an empty frame with only the five base columns; then missing required
columns raise; otherwise aggregate. -/
def build_spc_alerts_from_points (f : ScoredFrame) :
    Except (List String) AlertTable :=
  if f.rows.isEmpty then .ok { cols := alertBaseCols, recs := [] }
  else
    let missing := missingFrom alertsRequiredCols f.cols
    if missing.isEmpty then .ok (aggCore f.rows)
    else .error missing

/-- A raw input row of the capability baseline: the five used columns, any
of which may be missing. -/
structure CapRow where
  key : Option ℕ
  time : Option ℤ
  value : Option ℚ
  lsl : Option ℚ
  usl : Option ℚ
deriving DecidableEq, Repr, Inhabited

/-- A capability row that survived `dropna()` on all five columns. -/
structure CapClean where
  key : ℕ
  time : ℤ
  value : ℚ
  lsl : ℚ
  usl : ℚ
deriving DecidableEq, Repr, Inhabited

/-- `df[[key, time, value, lsl, usl]].dropna()` plus timestamp coercion. -/
def cleanCap (rows : List CapRow) : List CapClean :=
  rows.filterMap fun r =>
    match r.key, r.time, r.value, r.lsl, r.usl with
    | some k, some t, some v, some lo, some hi => some ⟨k, t, v, lo, hi⟩
    | _, _, _, _, _ => none

/-- Input frame of `compute_capability_v1`. -/
structure CapFrame where
  cols : List String
  rows : List CapRow
deriving DecidableEq, Repr, Inhabited

/-- Lexicographic `(key, time)` order for the capability baseline sort. -/
def capLE (a b : CapClean) : Bool :=
  decide (a.key < b.key) || (a.key == b.key && decide (a.time ≤ b.time))

/-- `x.sort_values([key_col, time_col], kind="mergesort")`. -/
def sortCap (xs : List CapClean) : List CapClean :=
  stableSort capLE xs

/-- Comparison used to evaluate the pandas median. -/
def qLE (a b : ℚ) : Bool := decide (a ≤ b)

/-- pandas `Series.median` of a non-empty series: middle element of the
sorted values, or the average of the two middle elements for even length. -/
def median (l : List ℚ) : ℚ :=
  let s := stableSort qLE l
  let n := s.length
  if n % 2 = 1 then s.getD (n / 2) 0
  else (s.getD (n / 2 - 1) 0 + s.getD (n / 2) 0) / 2

/-- pandas `Series.std(ddof=1)` with the square root left unapplied: the
sample variance `Σ (x - mean)² / (n - 1)`, `NaN` (`none`) for `n ≤ 1`.
The source stores `std_overall = sqrt` of this value; the square root is
irrational, so the model carries the variance instead.  Only positivity of
`std_overall` is ever consumed downstream, and `sqrt v > 0 ↔ v > 0`.
Beware that this is the EXACT sample variance: the source computes it in
IEEE doubles, where a constant series can yield a small positive variance
because the two-pass mean is rounded, even though every moving range of the
same series is exactly zero.  Statements whose truth depends on that
rounding gap are outside this model. -/
def sampleVar (l : List ℚ) : Option ℚ :=
  if l.length ≤ 1 then none
  else
    let m := qmean l
    some ((l.map (fun x => (x - m) ^ 2)).sum / ((l.length : ℚ) - 1))

/-- Per-group aggregate of `compute_capability_v1`:
`N, mean, std_overall, mrbar, n_mr, lsl_med, usl_med, tol_variants_*`. -/
structure CapStat where
  key : ℕ
  N : ℕ
  mean : ℚ
  std_overall_sq : Option ℚ
  mrbar : Option ℚ
  n_mr : ℕ
  lsl_med : ℚ
  usl_med : ℚ
  tol_variants_lsl : ℕ
  tol_variants_usl : ℕ
deriving DecidableEq, Repr

/-- Build the per-group aggregate from the group's rows paired with their
moving ranges. -/
def mkCapStat (k : ℕ) (grp : List (CapClean × Option ℚ)) : CapStat :=
  let vals := grp.map (fun p => p.1.value)
  let mrs := grp.filterMap (fun p => p.2)
  { key := k
    N := grp.length
    mean := qmean vals
    std_overall_sq := sampleVar vals
    mrbar := omean mrs
    n_mr := mrs.length
    lsl_med := median (grp.map (fun p => p.1.lsl))
    usl_med := median (grp.map (fun p => p.1.usl))
    tol_variants_lsl := (grp.map (fun p => p.1.lsl)).dedup.length
    tol_variants_usl := (grp.map (fun p => p.1.usl)).dedup.length }

/-- One record of the capability table.  `std_overall_sq` carries the sample
variance (the square of the source's `std_overall`, see `sampleVar`).
`Pp`/`Ppk` are the overall indices whose real value involves
`sqrt std_overall_sq`; they are carried as the exact pair
`(numerator, variance)` with real value `fst / (6 * sqrt snd)` for `Pp` and
`fst / (3 * sqrt snd)` for `Ppk`; `none` is pandas `NA`. -/
structure CapRec where
  key : ℕ
  N : ℕ
  n_mr : ℕ
  mean : ℚ
  std_overall_sq : Option ℚ
  mrbar : Option ℚ
  sigma_within : Option ℚ
  lsl : ℚ
  usl : ℚ
  tol_span : ℚ
  Pp : Option (ℚ × ℚ)
  Ppk : Option (ℚ × ℚ)
  Cp : Option ℚ
  Cpk : Option ℚ
  tol_variants_lsl : ℕ
  tol_variants_usl : ℕ
  tol_inconsistent : Bool
deriving DecidableEq, Repr

/-- Derived capability columns: `tol_span = usl - lsl`,
`sigma_within = mrbar / d2`, the validity masks
`tol_ok / overall_ok / within_ok`, and the four indices, each computed only
under its own mask and left `NA` otherwise.
`Pp = tol_span / (6 std)`, `Ppk = min(usl - mean, mean - lsl) / (3 std)`
(the minimum of `PPU` and `PPL` is decided by the numerators because the
common denominator is positive); `Cp`/`Cpk` are the same formulas with
`sigma_within`, which is rational, so they are carried directly. -/
def finishCap (a : CapStat) : CapRec :=
  let tol_span := a.usl_med - a.lsl_med
  let sigma_within := a.mrbar.map (fun m => m / D2_MR2)
  let tol_ok := decide (0 < tol_span)
  let overall_ok :=
    match a.std_overall_sq with
    | some v => decide (0 < v)
    | none => false
  let within_ok :=
    match sigma_within with
    | some s => decide (0 < s)
    | none => false
  { key := a.key
    N := a.N
    n_mr := a.n_mr
    mean := a.mean
    std_overall_sq := a.std_overall_sq
    mrbar := a.mrbar
    sigma_within := sigma_within
    lsl := a.lsl_med
    usl := a.usl_med
    tol_span := tol_span
    Pp :=
      if tol_ok && overall_ok then
        a.std_overall_sq.map (fun v => (tol_span, v))
      else none
    Ppk :=
      if tol_ok && overall_ok then
        a.std_overall_sq.map (fun v => (min (a.usl_med - a.mean) (a.mean - a.lsl_med), v))
      else none
    Cp :=
      if tol_ok && within_ok then
        sigma_within.map (fun s => tol_span / (6 * s))
      else none
    Cpk :=
      if tol_ok && within_ok then
        sigma_within.map
          (fun s => min ((a.usl_med - a.mean) / (3 * s)) ((a.mean - a.lsl_med) / (3 * s)))
      else none
    tol_variants_lsl := a.tol_variants_lsl
    tol_variants_usl := a.tol_variants_usl
    tol_inconsistent := decide (1 < a.tol_variants_lsl) || decide (1 < a.tol_variants_usl) }

/-- Core of `compute_capability_v1` on cleaned rows: sort, moving ranges,
per-group aggregation, the `N ≥ min_points ∧ n_mr ≥ min_mr` filter, and the
derived columns. -/
def capCore (xs : List CapClean) (min_points min_mr : ℕ) : List CapRec :=
  let s := sortCap xs
  let withMR := addMR CapClean.key CapClean.value [] s
  let stats :=
    (keysInOrder CapClean.key [] s).map
      (fun k => mkCapStat k (withMR.filter (fun p => p.1.key == k)))
  (stats.filter (fun a => decide (min_points ≤ a.N) && decide (min_mr ≤ a.n_mr))).map
    finishCap

/-- Required columns of `compute_capability_v1`. -/
def capRequiredCols : List String :=
  [key_col, time_col, value_col, lsl_col, usl_col]

/-- `compute_capability_v1` (analysis/capability.py): empty/None input gives
the empty table; then missing required columns raise; `min_mr` defaults to
`max(min_points - 1, 1)`; then clean, sort, aggregate, filter and derive. -/
def compute_capability_v1 (f : CapFrame) (min_points : ℕ) (min_mr : Option ℕ) :
    Except (List String) (List CapRec) :=
  if f.rows.isEmpty then .ok []
  else
    let missing := missingFrom capRequiredCols f.cols
    if missing.isEmpty then
      .ok (capCore (cleanCap f.rows) min_points (min_mr.getD (max (min_points - 1) 1)))
    else .error missing

/-- The moving ranges of a single group, as a function of the group's value
sequence and of the last value of the group seen before it (the
accumulator entry): `none` heads a group never seen before. -/
def diffsFrom (prev : Option ℚ) : List ℚ → List (Option ℚ)
  | [] => []
  | v :: vs => (prev.map (fun p => |v - p|)) :: diffsFrom (some v) vs

theorem ordInsert_perm {α : Type} (le : α → α → Bool) (x : α) (l : List α) :
    (ordInsert le x l).Perm (x :: l) := by
  induction l with
  | nil => simp [ordInsert]
  | cons y ys ih =>
    by_cases h : le x y
    · simp [ordInsert, h]
    · simp only [ordInsert, h, if_neg, Bool.false_eq_true, not_false_iff, ite_false]
      exact ((ih.cons y).trans (List.Perm.swap x y ys))

theorem stableSort_perm {α : Type} (le : α → α → Bool) (l : List α) :
    (stableSort le l).Perm l := by
  induction l with
  | nil => simp [stableSort]
  | cons x xs ih =>
    exact (ordInsert_perm le x (stableSort le xs)).trans (ih.cons x)

theorem mem_keysInOrder {α : Type} (key : α → ℕ) :
    ∀ (xs : List α) (seen : List ℕ) (k : ℕ),
      k ∈ keysInOrder key seen xs ↔ k ∉ seen ∧ ∃ r ∈ xs, key r = k := by
  intro xs
  induction xs with
  | nil => simp [keysInOrder]
  | cons r rs ih =>
    intro seen k
    by_cases hs : key r ∈ seen
    · rw [keysInOrder, if_pos (by simp [hs]), ih]
      simp only [List.mem_cons]
      constructor
      · rintro ⟨hk, w, hw, hkey⟩
        exact ⟨hk, w, Or.inr hw, hkey⟩
      · rintro ⟨hk, w, hw | hw, hkey⟩
        · subst hw
          exact absurd (hkey ▸ hs) hk
        · exact ⟨hk, w, hw, hkey⟩
    · rw [keysInOrder, if_neg (by simp [hs])]
      simp only [List.mem_cons, ih]
      constructor
      · rintro (rfl | ⟨hk, w, hw, hkey⟩)
        · exact ⟨hs, r, Or.inl rfl, rfl⟩
        · exact ⟨fun h => hk (Or.inr h), w, Or.inr hw, hkey⟩
      · rintro ⟨hk, w, hw | hw, hkey⟩
        · subst hw
          exact Or.inl hkey.symm
        · by_cases hkr : k = key r
          · exact Or.inl hkr
          · refine Or.inr ⟨fun h => ?_, w, hw, hkey⟩
            rcases h with h1 | h1
            · exact hkr h1
            · exact hk h1

theorem addMR_map_fst {α : Type} (key : α → ℕ) (val : α → ℚ) :
    ∀ (xs : List α) (acc : List (ℕ × ℚ)),
      (addMR key val acc xs).map Prod.fst = xs := by
  intro xs
  induction xs with
  | nil => intro acc; simp [addMR]
  | cons r rs ih => intro acc; simp [addMR, ih]

theorem addMR_filter_fst {α : Type} (key : α → ℕ) (val : α → ℚ) (q : α → Bool) :
    ∀ (xs : List α) (acc : List (ℕ × ℚ)),
      ((addMR key val acc xs).filter (fun p => q p.1)).map Prod.fst = xs.filter q := by
  intro xs
  induction xs with
  | nil => intro acc; simp [addMR]
  | cons r rs ih =>
    intro acc
    by_cases h : q r
    · simp [addMR, h, ih]
    · simp [addMR, h, ih]

theorem addMR_filter_snd {α : Type} (key : α → ℕ) (val : α → ℚ) (k : ℕ) :
    ∀ (xs : List α) (acc : List (ℕ × ℚ)),
      ((addMR key val acc xs).filter (fun p => key p.1 == k)).map Prod.snd =
        diffsFrom (acc.lookup k) ((xs.filter (fun r => key r == k)).map val) := by
  intro xs
  induction xs with
  | nil => intro acc; simp [addMR, diffsFrom]
  | cons r rs ih =>
    intro acc
    by_cases h : key r = k
    · subst h
      simp only [addMR, List.filter_cons, beq_self_eq_true, if_true, List.map_cons, ih,
        List.map, diffsFrom]
      have : List.lookup (key r) ((key r, val r) :: acc) = some (val r) := by
        simp [List.lookup]
      rw [this]
    · have hb : (key r == k) = false := by simp [h]
      simp only [addMR, List.filter_cons, hb, Bool.false_eq_true, if_false, ih]
      have : List.lookup k ((key r, val r) :: acc) = List.lookup k acc := by
        simp [List.lookup, show (k == key r) = false by simp [Ne.symm h]]
      rw [this]

theorem length_diffsFrom (p : Option ℚ) :
    ∀ vs : List ℚ, (diffsFrom p vs).length = vs.length := by
  intro vs
  induction vs generalizing p with
  | nil => rfl
  | cons v vs ih => simp [diffsFrom, ih]

theorem defined_diffsFrom_some (c : ℚ) :
    ∀ vs : List ℚ, ((diffsFrom (some c) vs).filterMap id).length = vs.length := by
  intro vs
  induction vs generalizing c with
  | nil => rfl
  | cons v vs ih =>
    have hh : (diffsFrom (some c) (v :: vs)).filterMap id =
        |v - c| :: (diffsFrom (some v) vs).filterMap id := rfl
    rw [hh, List.length_cons, ih]
    rfl

theorem defined_diffsFrom_none (vs : List ℚ) :
    ((diffsFrom none vs).filterMap id).length = vs.length - 1 := by
  cases vs with
  | nil => rfl
  | cons v vs =>
    have hh : (diffsFrom none (v :: vs)).filterMap id =
        (diffsFrom (some v) vs).filterMap id := rfl
    rw [hh, defined_diffsFrom_some]
    simp

theorem diffsFrom_nonneg (p : Option ℚ) :
    ∀ vs : List ℚ, ∀ d ∈ (diffsFrom p vs).filterMap id, 0 ≤ d := by
  intro vs
  induction vs generalizing p with
  | nil => simp [diffsFrom]
  | cons v vs ih =>
    intro d hd
    cases p with
    | none =>
      have hh : (diffsFrom none (v :: vs)).filterMap id =
          (diffsFrom (some v) vs).filterMap id := rfl
      rw [hh] at hd
      exact ih (some v) d hd
    | some c =>
      have hh : (diffsFrom (some c) (v :: vs)).filterMap id =
          |v - c| :: (diffsFrom (some v) vs).filterMap id := rfl
      rw [hh] at hd
      rcases List.mem_cons.mp hd with h | h
      · subst h
        exact abs_nonneg _
      · exact ih (some v) d h

theorem diffsFrom_zero_iff (c : ℚ) :
    ∀ vs : List ℚ,
      (∀ d ∈ (diffsFrom (some c) vs).filterMap id, d = 0) ↔ ∀ v ∈ vs, v = c := by
  intro vs
  induction vs generalizing c with
  | nil => simp [diffsFrom]
  | cons v vs ih =>
    have hh : (diffsFrom (some c) (v :: vs)).filterMap id =
        |v - c| :: (diffsFrom (some v) vs).filterMap id := rfl
    rw [hh]
    constructor
    · intro h
      have h0 : |v - c| = 0 := h _ (List.mem_cons_self _ _)
      have hv : v = c := by
        have := sub_eq_zero.mp (abs_eq_zero.mp h0)
        linarith
      intro w hw
      rcases List.mem_cons.mp hw with rfl | hw2
      · exact hv
      · rw [(ih v).mp (fun d hd2 => h d (List.mem_cons_of_mem _ hd2)) w hw2, hv]
    · intro h d hd2
      rcases List.mem_cons.mp hd2 with rfl | hd3
      · have hv : v = c := h v (List.mem_cons_self _ _)
        simp [hv]
      · have hall : ∀ w ∈ vs, w = v := by
          intro w hw
          rw [h w (List.mem_cons_of_mem _ hw), h v (List.mem_cons_self _ _)]
        exact (ih v).mpr hall d hd3

theorem sum_eq_zero_iff_of_nonneg (l : List ℚ) (h : ∀ x ∈ l, 0 ≤ x) :
    l.sum = 0 ↔ ∀ x ∈ l, x = 0 := by
  induction l with
  | nil => simp
  | cons x xs ih =>
    have hx : 0 ≤ x := h x (List.mem_cons_self x xs)
    have hxs : ∀ y ∈ xs, 0 ≤ y := fun y hy => h y (List.mem_cons_of_mem x hy)
    simp only [List.sum_cons, List.mem_cons, forall_eq_or_imp]
    rw [add_eq_zero_iff_of_nonneg hx (List.sum_nonneg hxs), ih hxs]

theorem sum_of_const (c : ℚ) :
    ∀ l : List ℚ, (∀ x ∈ l, x = c) → l.sum = (l.length : ℚ) * c := by
  intro l
  induction l with
  | nil => simp
  | cons x xs ih =>
    intro h
    have hx : x = c := h x (List.mem_cons_self x xs)
    rw [List.sum_cons, ih (fun y hy => h y (List.mem_cons_of_mem x hy)), hx,
      List.length_cons]
    push_cast
    ring

theorem qmean_const (l : List ℚ) (c : ℚ) (h : ∀ x ∈ l, x = c) (hne : l ≠ []) :
    qmean l = c := by
  have hlen : ((l.length : ℚ)) ≠ 0 :=
    Nat.cast_ne_zero.mpr (by simpa using hne)
  rw [qmean, sum_of_const c l h, mul_comm, mul_div_assoc, div_self hlen, mul_one]

theorem qmean_pos_iff_of_nonneg (l : List ℚ) (h : ∀ x ∈ l, 0 ≤ x) (hne : l ≠ []) :
    0 < qmean l ↔ ¬ ∀ x ∈ l, x = 0 := by
  have hlen : (0 : ℚ) < l.length := by
    have h2 : l.length ≠ 0 := by simpa using hne
    exact_mod_cast Nat.pos_of_ne_zero h2
  rw [qmean, div_pos_iff_of_pos_right hlen]
  have hs : 0 ≤ l.sum := List.sum_nonneg h
  constructor
  · intro hpos hall
    rw [(sum_eq_zero_iff_of_nonneg l h).mpr hall] at hpos
    exact lt_irrefl 0 hpos
  · intro hne2
    rcases hs.lt_or_eq with hlt | heq
    · exact hlt
    · exact absurd ((sum_eq_zero_iff_of_nonneg l h).mp heq.symm) hne2

theorem addMR_group_length {α : Type} (key : α → ℕ) (val : α → ℚ) (k : ℕ)
    (xs : List α) (acc : List (ℕ × ℚ)) :
    ((addMR key val acc xs).filter (fun p => key p.1 == k)).length =
      (xs.filter (fun r => key r == k)).length := by
  have h2 : ((addMR key val acc xs).filter (fun p => key p.1 == k)).map Prod.fst =
      xs.filter (fun r => key r == k) := addMR_filter_fst key val (fun r => key r == k) xs acc
  rw [← h2, List.length_map]

theorem addMR_group_vals {α : Type} (key : α → ℕ) (val : α → ℚ) (k : ℕ)
    (xs : List α) (acc : List (ℕ × ℚ)) :
    ((addMR key val acc xs).filter (fun p => key p.1 == k)).map (fun p => val p.1) =
      (xs.filter (fun r => key r == k)).map val := by
  have h2 : ((addMR key val acc xs).filter (fun p => key p.1 == k)).map Prod.fst =
      xs.filter (fun r => key r == k) := addMR_filter_fst key val (fun r => key r == k) xs acc
  have h3 : ((addMR key val acc xs).filter (fun p => key p.1 == k)).map (fun p => val p.1) =
      (((addMR key val acc xs).filter (fun p => key p.1 == k)).map Prod.fst).map val :=
    (List.map_map val Prod.fst _).symm
  rw [h3, h2]

theorem group_filterMap_snd {β : Type} (grp : List (β × Option ℚ)) :
    grp.filterMap (fun p => p.2) = (grp.map Prod.snd).filterMap id :=
  (List.filterMap_map Prod.snd id grp).symm

/-- Unpacking of one aggregate of `imrAggs`: its fields are the length,
mean and moving-range mean of the value sequence `gvs` of its group in the
sorted cleaned input. -/
theorem imrAggs_elim (xs : List CleanRow) (a : ImrAgg) (ha : a ∈ imrAggs xs) :
    ∃ k gvs, (∃ r ∈ xs, r.key = k) ∧
      gvs = ((sortRows xs).filter (fun r => r.key == k)).map CleanRow.value ∧
      gvs ≠ [] ∧
      a.key = k ∧ a.N = gvs.length ∧ a.Xbar = qmean gvs ∧
      a.MRbar = omean ((diffsFrom none gvs).filterMap id) := by
  simp only [imrAggs, List.mem_map] at ha
  obtain ⟨k, hk, hae⟩ := ha
  obtain ⟨hnotin, r, hrs, hrk⟩ := (mem_keysInOrder CleanRow.key (sortRows xs) [] k).mp hk
  refine ⟨k, ((sortRows xs).filter (fun r => r.key == k)).map CleanRow.value,
    ⟨r, (stableSort_perm rowLE xs).mem_iff.mp hrs, hrk⟩, rfl, ?_, ?_, ?_, ?_, ?_⟩
  · have hrf : r ∈ (sortRows xs).filter (fun r => r.key == k) :=
      List.mem_filter.mpr ⟨hrs, by simp [hrk]⟩
    intro hcon
    rw [List.map_eq_nil_iff] at hcon
    rw [hcon] at hrf
    exact absurd hrf (List.not_mem_nil r)
  · rw [← hae]
    rfl
  · rw [← hae]
    show ((addMR CleanRow.key CleanRow.value [] (sortRows xs)).filter
        (fun p => p.1.key == k)).length = _
    rw [addMR_group_length CleanRow.key CleanRow.value k (sortRows xs) [],
      List.length_map]
  · rw [← hae]
    show qmean (((addMR CleanRow.key CleanRow.value [] (sortRows xs)).filter
        (fun p => p.1.key == k)).map (fun p => p.1.value)) = _
    rw [addMR_group_vals CleanRow.key CleanRow.value k (sortRows xs) []]
  · rw [← hae]
    show omean (((addMR CleanRow.key CleanRow.value [] (sortRows xs)).filter
        (fun p => p.1.key == k)).filterMap (fun p => p.2)) = _
    rw [group_filterMap_snd,
      addMR_filter_snd CleanRow.key CleanRow.value k (sortRows xs) []]
    rfl

/-- Introduction form: every key occurring in the input yields exactly the
aggregate of its group. -/
theorem imrAggs_intro (xs : List CleanRow) (k : ℕ) (hk : ∃ r ∈ xs, r.key = k) :
    ∃ a ∈ imrAggs xs, a.key = k ∧
      a.N = ((sortRows xs).filter (fun r => r.key == k)).length := by
  obtain ⟨r, hr, hrk⟩ := hk
  have hks : k ∈ keysInOrder CleanRow.key [] (sortRows xs) :=
    (mem_keysInOrder CleanRow.key (sortRows xs) [] k).mpr
      ⟨List.not_mem_nil k, r, (stableSort_perm rowLE xs).mem_iff.mpr hr, hrk⟩
  refine ⟨_, List.mem_map_of_mem _ hks, rfl, ?_⟩
  show ((addMR CleanRow.key CleanRow.value [] (sortRows xs)).filter
      (fun p => p.1.key == k)).length = _
  rw [addMR_group_length CleanRow.key CleanRow.value k (sortRows xs) []]

theorem omean_of_ne_nil (l : List ℚ) (h : l ≠ []) : omean l = some (qmean l) := by
  rw [omean, if_neg (by simpa using h)]

theorem group_count (xs : List CleanRow) (k : ℕ) :
    ((sortRows xs).filter (fun r => r.key == k)).length =
      xs.countP (fun r => r.key == k) := by
  rw [← List.countP_eq_length_filter]
  exact (stableSort_perm rowLE xs).countP_eq _

/-- In an `ok` result, `compute_imr_limits` either took the empty-input
branch or computed `limitsCore` on the cleaned rows. -/
theorem compute_imr_limits_ok_cases (f : InFrame) (mp : ℕ) (out : List LimitRec)
    (h : compute_imr_limits f mp = Except.ok out) :
    (f.rows = [] ∧ out = []) ∨ out = limitsCore (cleanRows f.rows) mp := by
  by_cases he : f.rows.isEmpty
  · rw [compute_imr_limits, if_pos he] at h
    exact Or.inl ⟨List.isEmpty_iff.mp he, (Except.ok.injEq _ _).mp h |>.symm⟩
  · simp only [compute_imr_limits, if_neg he] at h
    by_cases hm : (missingFrom imrRequiredCols f.cols).isEmpty
    · rw [if_pos hm] at h
      exact Or.inr ((Except.ok.injEq _ _).mp h).symm
    · rw [if_neg hm] at h
      exact absurd h (by simp)

/-- Unpacking of a record of `limitsCore`. -/
theorem limitsCore_elim (xs : List CleanRow) (mp : ℕ) (r : LimitRec)
    (hr : r ∈ limitsCore xs mp) :
    ∃ a ∈ imrAggs xs, mp ≤ a.N ∧ r = extendLimits a := by
  simp only [limitsCore, List.mem_map, List.mem_filter] at hr
  obtain ⟨a, ⟨ha, hN⟩, hre⟩ := hr
  exact ⟨a, ha, by simpa using hN, hre.symm⟩

/-- C3, counterexample part: a baseline with a single-point group and
`min_points = 1` produces a limits record whose `LCL_MR` is `NaN`
(`0.0 * NaN = NaN`), not 0. -/
def c3BadFrame : InFrame :=
  { cols := ["STEP_ID", "DateTime", "FinalTorque"]
    rows := [⟨some 1, some 0, some 10⟩] }

/-- C3 -- counterexample: on the one-row baseline `c3BadFrame` with
`min_points = 1`, the produced limits record has `LCL_MR = NaN`
(modelled `none`), so the claim "LCL_MR equals exactly 0 for every limits
record, for any baseline input and any min_points value" fails: with
`MRbar = NaN` (no defined moving range in a one-point group) the source's
`LCL_MR = D3_MR2 * MRbar = 0.0 * NaN` is `NaN`. -/
theorem c3_counterexample :
    compute_imr_limits c3BadFrame 1 =
      Except.ok [extendLimits ⟨1, 1, 10, none⟩] ∧
    (extendLimits ⟨1, 1, 10, none⟩).LCL_MR = none := by
  constructor
  · norm_num [compute_imr_limits, c3BadFrame, missingFrom, imrRequiredCols, key_col,
      time_col, value_col, limitsCore, imrAggs, cleanRows, sortRows, stableSort,
      ordInsert, rowLE, addMR, keysInOrder, mkImrAgg, qmean, omean, List.lookup]
  · norm_num [extendLimits]

/-- C3 (amended): every limits record of a group with at least two baseline
points (equivalently, defined `MRbar`; always the case when
`min_points ≥ 2`) has `LCL_MR` exactly 0, since `D3` for subgroup size 2 is
0. -/
theorem c3_lclmr_zero (f : InFrame) (mp : ℕ) (out : List LimitRec)
    (hout : compute_imr_limits f mp = Except.ok out) (r : LimitRec) (hr : r ∈ out)
    (hN : 2 ≤ r.N) : r.LCL_MR = some 0 := by
  rcases compute_imr_limits_ok_cases f mp out hout with ⟨_, rfl⟩ | rfl
  · exact absurd hr (List.not_mem_nil r)
  · obtain ⟨a, ha, _, rfl⟩ := limitsCore_elim (cleanRows f.rows) mp r hr
    obtain ⟨k, gvs, _, _, _, _, hNa, _, hMR⟩ := imrAggs_elim (cleanRows f.rows) a ha
    have hNa2 : 2 ≤ gvs.length := by
      have : (extendLimits a).N = a.N := rfl
      rw [this, hNa] at hN
      exact hN
    have hdne : (diffsFrom none gvs).filterMap id ≠ [] := by
      have hlen := defined_diffsFrom_none gvs
      intro hcon
      rw [hcon] at hlen
      simp at hlen
      omega
    have hMRs : a.MRbar = some (qmean ((diffsFrom none gvs).filterMap id)) := by
      rw [hMR, omean_of_ne_nil _ hdne]
    show (extendLimits a).LCL_MR = some 0
    simp [extendLimits, hMRs, D3_MR2]

/-- Concrete two-point baseline used to witness the amended C3. -/
def c3Frame : InFrame :=
  { cols := ["STEP_ID", "DateTime", "FinalTorque"]
    rows := [⟨some 1, some 0, some 10⟩, ⟨some 1, some 1, some 10⟩] }

/-- The limits record `compute_imr_limits` produces on `c3Frame`. -/
def c3Rec : LimitRec := extendLimits ⟨1, 2, 10, some 0⟩

/-- C3 -- witness for the amended theorem at a concrete two-point
baseline. -/
theorem c3_witness : c3Rec.LCL_MR = some 0 :=
  c3_lclmr_zero c3Frame 2 [c3Rec]
    (by
      norm_num [compute_imr_limits, c3Frame, missingFrom, imrRequiredCols, key_col,
        time_col, value_col, limitsCore, imrAggs, cleanRows, sortRows, stableSort,
        ordInsert, rowLE, addMR, keysInOrder, mkImrAgg, qmean, omean, c3Rec,
        List.lookup, List.filterMap_cons, List.isEmpty])
    c3Rec (List.mem_singleton.mpr rfl) (by norm_num [c3Rec, extendLimits])

/-- C8: `compute_imr_limits` retains exactly the groups whose cleaned
baseline point count is at least `min_points`: every output record belongs
to such a group and carries that count as `N`, every sufficiently large
group of the cleaned input yields a record, and an empty input yields the
empty table. -/
theorem c8_min_points_filter (f : InFrame) (mp : ℕ) (out : List LimitRec)
    (hout : compute_imr_limits f mp = Except.ok out) :
    (∀ r ∈ out, mp ≤ r.N ∧
        r.N = (cleanRows f.rows).countP (fun c => c.key == r.key)) ∧
    (∀ k : ℕ, (∃ c ∈ cleanRows f.rows, c.key = k) →
        mp ≤ (cleanRows f.rows).countP (fun c => c.key == k) →
        ∃ r ∈ out, r.key = k) ∧
    (f.rows = [] → out = []) := by
  rcases compute_imr_limits_ok_cases f mp out hout with ⟨hef, rfl⟩ | rfl
  · refine ⟨fun r hr => absurd hr (List.not_mem_nil r), fun k hk _ => ?_, fun _ => rfl⟩
    rw [hef] at hk
    obtain ⟨c, hc, _⟩ := hk
    exact absurd hc (by simp [cleanRows])
  · set xs := cleanRows f.rows with hxs
    refine ⟨?_, ?_, ?_⟩
    · intro r hr
      obtain ⟨a, ha, hN, rfl⟩ := limitsCore_elim xs mp r hr
      obtain ⟨k, gvs, _, hgvs, _, hkey, hNa, _, _⟩ := imrAggs_elim xs a ha
      have hcnt : a.N = xs.countP (fun c => c.key == k) := by
        rw [hNa, hgvs, List.length_map, group_count]
      have h1 : (extendLimits a).N = a.N := rfl
      have h2 : (extendLimits a).key = a.key := rfl
      rw [h1, h2, hkey]
      exact ⟨hN, hcnt⟩
    · intro k hk hcnt
      obtain ⟨a, ha, hkey, hNa⟩ := imrAggs_intro xs k hk
      have hN : mp ≤ a.N := by
        rw [hNa, group_count]
        exact hcnt
      refine ⟨extendLimits a, ?_, hkey⟩
      simp only [limitsCore, List.mem_map]
      exact ⟨a, List.mem_filter.mpr ⟨ha, by simpa using hN⟩, rfl⟩
    · intro hef
      have : xs = [] := by rw [hxs, hef]; rfl
      rw [this]
      rfl

/-- Concrete baseline for the C8 witness: group 1 has two points, group 2
only one, `min_points = 2`. -/
def c8Frame : InFrame :=
  { cols := ["STEP_ID", "DateTime", "FinalTorque"]
    rows := [⟨some 1, some 0, some 10⟩, ⟨some 1, some 1, some 10⟩,
             ⟨some 2, some 2, some 5⟩] }

/-- The only limits record `compute_imr_limits` produces on `c8Frame`:
group 2 (a single point, below `min_points = 2`) is excluded entirely. -/
def c8Rec : LimitRec := extendLimits ⟨1, 2, 10, some 0⟩

/-- C8 -- witness: on `c8Frame` with `min_points = 2` the output is exactly
the group-1 record (group 2 being excluded), its `N` is the group-1 count,
and group 1 indeed reaches a record. -/
theorem c8_witness :
    (2 ≤ c8Rec.N ∧ c8Rec.N = 2) ∧ (∃ r ∈ [c8Rec], r.key = 1) := by
  have heval : compute_imr_limits c8Frame 2 = Except.ok [c8Rec] := by
    norm_num [compute_imr_limits, c8Frame, missingFrom, imrRequiredCols, key_col,
      time_col, value_col, limitsCore, imrAggs, cleanRows, sortRows, stableSort,
      ordInsert, rowLE, addMR, keysInOrder, mkImrAgg, qmean, omean, c8Rec,
      List.lookup, List.filterMap_cons, List.isEmpty]
  have h := c8_min_points_filter c8Frame 2 [c8Rec] heval
  have hcnt : (cleanRows c8Frame.rows).countP (fun c => c.key == 1) = 2 := by
    norm_num [cleanRows, c8Frame, List.countP_cons, List.filterMap_cons]
  refine ⟨?_, h.2.1 1 ⟨⟨1, 0, 10⟩, by norm_num [cleanRows, c8Frame, List.filterMap_cons], rfl⟩
    (by rw [hcnt])⟩
  have h1 := h.1 c8Rec (List.mem_singleton.mpr rfl)
  have h2 : (c8Rec).key = 1 := rfl
  rw [h2] at h1
  rw [hcnt] at h1
  exact h1

theorem addMR_mem_fst {α : Type} (key : α → ℕ) (val : α → ℚ) :
    ∀ (xs : List α) (acc : List (ℕ × ℚ)) (q : α × Option ℚ),
      q ∈ addMR key val acc xs → q.1 ∈ xs := by
  intro xs
  induction xs with
  | nil => intro acc q hq; simp [addMR] at hq
  | cons r rs ih =>
    intro acc q hq
    rcases List.mem_cons.mp hq with rfl | hq2
    · exact List.mem_cons_self _ _
    · exact List.mem_cons_of_mem _ (ih _ q hq2)

/-- In an `ok` result, `score_imr_points` either took one of the two
empty-input branches or computed `scoreCore` on the cleaned rows. -/
theorem score_imr_points_ok_cases (f : InFrame) (L : List LimitRec)
    (out : List ScoredRow) (h : score_imr_points f L = Except.ok out) :
    out = [] ∨ out = scoreCore (cleanRows f.rows) L := by
  by_cases he : f.rows.isEmpty
  · rw [score_imr_points, if_pos he] at h
    exact Or.inl ((Except.ok.injEq _ _).mp h).symm
  · rw [score_imr_points, if_neg he] at h
    by_cases hL : L.isEmpty
    · rw [if_pos hL] at h
      exact Or.inl ((Except.ok.injEq _ _).mp h).symm
    · simp only [if_neg hL] at h
      by_cases hm : (missingFrom imrRequiredCols f.cols).isEmpty
      · rw [if_pos hm] at h
        exact Or.inr ((Except.ok.injEq _ _).mp h).symm
      · rw [if_neg hm] at h
        exact absurd h (by simp)

/-- Every scored row is `mkScored` of an evaluation row, a limits record of
the limits table, and some moving range. -/
theorem scoreCore_elim (pts : List CleanRow) (L : List LimitRec) (r : ScoredRow)
    (hr : r ∈ scoreCore pts L) :
    ∃ p Lr mr, Lr ∈ L ∧ r = mkScored p Lr mr := by
  simp only [scoreCore, List.mem_map] at hr
  obtain ⟨q, hq, hre⟩ := hr
  have hq1 := addMR_mem_fst _ _ _ _ q hq
  simp only [List.mem_flatMap, List.mem_map] at hq1
  obtain ⟨p, _, Lr, hLr, hpe⟩ := hq1
  refine ⟨p, Lr, q.2, (List.mem_filter.mp hLr).1, ?_⟩
  rw [← hre, ← hpe]

theorem mkScored_rule_eq (p : CleanRow) (Lr : LimitRec) (mr : Option ℚ) :
    (mkScored p Lr mr).rule =
      (if (mkScored p Lr mr).is_ooc_mr then Rule.MR_3SIGMA
       else if (mkScored p Lr mr).is_ooc_i then Rule.I_3SIGMA else Rule.OK) := rfl

theorem mkScored_alert_eq (p : CleanRow) (Lr : LimitRec) (mr : Option ℚ) :
    (mkScored p Lr mr).is_alert =
      ((mkScored p Lr mr).is_ooc_i || (mkScored p Lr mr).is_ooc_mr) := rfl

/-- C1: for every scored point with both OOC flags set, the assigned rule
is `MR_3SIGMA` and never `I_3SIGMA` (precedence
`MR_3SIGMA > I_3SIGMA > OK`). -/
theorem c1_rule_precedence (f : InFrame) (L : List LimitRec)
    (out : List ScoredRow) (hout : score_imr_points f L = Except.ok out)
    (r : ScoredRow) (hr : r ∈ out)
    (hi : r.is_ooc_i = true) (hmr : r.is_ooc_mr = true) :
    r.rule = Rule.MR_3SIGMA ∧ r.rule ≠ Rule.I_3SIGMA := by
  rcases score_imr_points_ok_cases f L out hout with rfl | rfl
  · exact absurd hr (List.not_mem_nil r)
  · obtain ⟨p, Lr, mr, _, rfl⟩ := scoreCore_elim (cleanRows f.rows) L r hr
    rw [mkScored_rule_eq, hmr]
    simp

/-- C10: a scored row has `is_alert` set exactly when its rule is not
`OK` (equivalently, `rule = OK` iff both OOC flags are clear). -/
theorem c10_alert_iff_rule (f : InFrame) (L : List LimitRec)
    (out : List ScoredRow) (hout : score_imr_points f L = Except.ok out)
    (r : ScoredRow) (hr : r ∈ out) :
    (r.is_alert = true ↔ r.rule ≠ Rule.OK) ∧
    (r.rule = Rule.OK ↔ (r.is_ooc_i = false ∧ r.is_ooc_mr = false)) := by
  rcases score_imr_points_ok_cases f L out hout with rfl | rfl
  · exact absurd hr (List.not_mem_nil r)
  · obtain ⟨p, Lr, mr, _, rfl⟩ := scoreCore_elim (cleanRows f.rows) L r hr
    cases h1 : (mkScored p Lr mr).is_ooc_i <;>
      cases h2 : (mkScored p Lr mr).is_ooc_mr <;>
        simp [mkScored_rule_eq, mkScored_alert_eq, h1, h2]

/-- Hand-made limits record used by the C1 witness: `UCL = 1`, `LCL = -1`,
`UCL_MR = 1`. -/
def c1Lim : LimitRec :=
  ⟨1, 5, 0, some 1, some 1, some 1, some (-1), some 1, some 0⟩

/-- Evaluation frame for the C1 witness: the second point jumps to 2, so
both `value > UCL` and `MR > UCL_MR` fire on it. -/
def c1Frame : InFrame :=
  { cols := ["STEP_ID", "DateTime", "FinalTorque"]
    rows := [⟨some 1, some 0, some 0⟩, ⟨some 1, some 1, some 2⟩] }

/-- The doubly-violating scored row of the C1 witness. -/
def c1Row : ScoredRow := mkScored ⟨1, 1, 2⟩ c1Lim (some 2)

/-- The scored table of the C1 witness. -/
def c1Out : List ScoredRow := [mkScored ⟨1, 0, 0⟩ c1Lim none, c1Row]

/-- C1 -- witness: a concrete point with both OOC flags set is ruled
`MR_3SIGMA`. -/
theorem c1_witness : c1Row.rule = Rule.MR_3SIGMA ∧ c1Row.rule ≠ Rule.I_3SIGMA :=
  c1_rule_precedence c1Frame [c1Lim] c1Out
    (by
      norm_num [score_imr_points, c1Frame, missingFrom, imrRequiredCols, key_col,
        time_col, value_col, scoreCore, cleanRows, sortRows, stableSort, ordInsert,
        rowLE, addMR, List.lookup, List.filterMap_cons, List.flatMap_cons,
        List.filter_cons, c1Out, c1Row, c1Lim])
    c1Row (by simp [c1Out])
    (by norm_num [c1Row, c1Lim, mkScored, oGT, oLT])
    (by norm_num [c1Row, c1Lim, mkScored, oGT])

/-- Limits record for the C10 witness. -/
def c10Lim : LimitRec :=
  ⟨1, 5, 0, some 1, some 1, some 1, some (-1), some 1, some 0⟩

/-- Evaluation frame for the C10 witness: both points stay inside the
limits, so the second row is ruled `OK` with `is_alert = 0`. -/
def c10Frame : InFrame :=
  { cols := ["STEP_ID", "DateTime", "FinalTorque"]
    rows := [⟨some 1, some 0, some 0⟩, ⟨some 1, some 1, some 0⟩] }

/-- The quiet scored row of the C10 witness. -/
def c10Row : ScoredRow := mkScored ⟨1, 1, 0⟩ c10Lim (some 0)

/-- The scored table of the C10 witness. -/
def c10Out : List ScoredRow := [mkScored ⟨1, 0, 0⟩ c10Lim none, c10Row]

/-- C10 -- witness: the alert/rule invariant instantiated on a concrete
scored row. -/
theorem c10_witness :
    (c10Row.is_alert = true ↔ c10Row.rule ≠ Rule.OK) ∧
    (c10Row.rule = Rule.OK ↔ (c10Row.is_ooc_i = false ∧ c10Row.is_ooc_mr = false)) :=
  c10_alert_iff_rule c10Frame [c10Lim] c10Out
    (by
      norm_num [score_imr_points, c10Frame, missingFrom, imrRequiredCols, key_col,
        time_col, value_col, scoreCore, cleanRows, sortRows, stableSort, ordInsert,
        rowLE, addMR, List.lookup, List.filterMap_cons, List.flatMap_cons,
        List.filter_cons, c10Out, c10Row, c10Lim])
    c10Row (by simp [c10Out])

theorem oGT_none (x : Option ℚ) : oGT none x = false := by
  cases x <;> rfl

theorem mkScored_oocmr_eq (p : CleanRow) (Lr : LimitRec) (mr : Option ℚ) :
    (mkScored p Lr mr).is_ooc_mr = oGT (mkScored p Lr mr).MR (mkScored p Lr mr).UCL_MR := rfl

/-- The first row of any group of a `scoreCore` result has an undefined
moving range. -/
theorem scoreCore_head_mr_none (pts : List CleanRow) (L : List LimitRec)
    (k : ℕ) (r : ScoredRow)
    (hr : (((scoreCore pts L).filter (fun s => s.key == k))).head? = some r) :
    r.MR = none := by
  have hform : scoreCore pts L =
      (addMR (fun p : CleanRow × LimitRec => p.1.key) (fun p => p.1.value) []
        ((sortRows pts).flatMap
          (fun p => (L.filter (fun Lr => Lr.key == p.key)).map (fun Lr => (p, Lr))))).map
        (fun q => mkScored q.1.1 q.1.2 q.2) := rfl
  rw [hform] at hr
  generalize hM : (sortRows pts).flatMap
      (fun p => (L.filter (fun Lr => Lr.key == p.key)).map (fun Lr => (p, Lr))) = M at hr
  have hfilt : ((addMR (fun p : CleanRow × LimitRec => p.1.key) (fun p => p.1.value) []
        M).map (fun q => mkScored q.1.1 q.1.2 q.2)).filter (fun s => s.key == k) =
      ((addMR (fun p : CleanRow × LimitRec => p.1.key) (fun p => p.1.value) []
        M).filter (fun q => q.1.1.key == k)).map (fun q => mkScored q.1.1 q.1.2 q.2) :=
    List.filter_map _ _
  rw [hfilt, List.head?_map] at hr
  set lf := (addMR (fun p : CleanRow × LimitRec => p.1.key) (fun p => p.1.value) []
    M).filter (fun q => q.1.1.key == k) with hlf
  cases hq : lf.head? with
  | none => rw [hq] at hr; exact absurd hr (by simp)
  | some q =>
    rw [hq] at hr
    have hrq : r = mkScored q.1.1 q.1.2 q.2 := by
      have h2 : Option.map (fun q : (CleanRow × LimitRec) × Option ℚ =>
          mkScored q.1.1 q.1.2 q.2) (some q) = some (mkScored q.1.1 q.1.2 q.2) := rfl
      rw [h2] at hr
      exact ((Option.some.injEq _ _).mp hr).symm
    have hsnd : lf.map Prod.snd =
        diffsFrom none ((M.filter (fun p : CleanRow × LimitRec => p.1.key == k)).map
          (fun p => p.1.value)) := by
      have h := addMR_filter_snd (fun p : CleanRow × LimitRec => p.1.key)
        (fun p => p.1.value) k M []
      exact h
    have hq2 : (lf.map Prod.snd).head? = some q.2 := by
      rw [List.head?_map, hq]
      rfl
    rw [hsnd] at hq2
    have hq2none : q.2 = none := by
      cases hgvs : (M.filter (fun p : CleanRow × LimitRec => p.1.key == k)).map
          (fun p => p.1.value) with
      | nil => rw [hgvs] at hq2; exact absurd hq2 (by simp [diffsFrom])
      | cons v vs =>
        rw [hgvs] at hq2
        have : diffsFrom none (v :: vs) = none :: diffsFrom (some v) vs := rfl
        rw [this] at hq2
        simp at hq2
        exact hq2.symm
    rw [hrq]
    show q.2 = none
    exact hq2none

/-- C7: the first row of every group of the scored table (the group's
time-ordered first evaluation point, whose MR is undefined) never has
`is_ooc_mr` set. -/
theorem c7_first_point_no_oocmr (f : InFrame) (L : List LimitRec)
    (out : List ScoredRow) (hout : score_imr_points f L = Except.ok out)
    (k : ℕ) (r : ScoredRow)
    (hr : (out.filter (fun s => s.key == k)).head? = some r) :
    r.is_ooc_mr = false := by
  rcases score_imr_points_ok_cases f L out hout with rfl | rfl
  · simp at hr
  · have hmr : r.MR = none := scoreCore_head_mr_none (cleanRows f.rows) L k r hr
    have hmem : r ∈ scoreCore (cleanRows f.rows) L := by
      have := List.mem_of_mem_head? hr
      exact (List.mem_filter.mp this).1
    obtain ⟨p, Lr, mr, _, rfl⟩ := scoreCore_elim (cleanRows f.rows) L r hmem
    rw [mkScored_oocmr_eq, hmr, oGT_none]

/-- Limits record for the C7 witness. -/
def c7Lim : LimitRec :=
  ⟨1, 5, 0, some 1, some 1, some 1, some (-1), some 1, some 0⟩

/-- Evaluation frame for the C7 witness; the second point would violate the
MR rule, the first cannot (undefined MR). -/
def c7Frame : InFrame :=
  { cols := ["STEP_ID", "DateTime", "FinalTorque"]
    rows := [⟨some 1, some 0, some 0⟩, ⟨some 1, some 1, some 2⟩] }

/-- The group-first scored row of the C7 witness. -/
def c7Row0 : ScoredRow := mkScored ⟨1, 0, 0⟩ c7Lim none

/-- The scored table of the C7 witness. -/
def c7Out : List ScoredRow := [c7Row0, mkScored ⟨1, 1, 2⟩ c7Lim (some 2)]

/-- C7 -- witness: the first evaluation point of group 1 has
`is_ooc_mr = false`. -/
theorem c7_witness : c7Row0.is_ooc_mr = false :=
  c7_first_point_no_oocmr c7Frame [c7Lim] c7Out
    (by
      norm_num [score_imr_points, c7Frame, missingFrom, imrRequiredCols, key_col,
        time_col, value_col, scoreCore, cleanRows, sortRows, stableSort, ordInsert,
        rowLE, addMR, List.lookup, List.filterMap_cons, List.flatMap_cons,
        List.filter_cons, c7Out, c7Row0, c7Lim])
    1 c7Row0
    (by norm_num [c7Out, c7Row0, c7Lim, List.filter_cons, mkScored])

/-- C6: whenever the limits table comes from `compute_imr_limits` and a
scored row's `Sigma` is exactly 0, its z-score is undefined (`NA`, not a
crash, an infinity or zero) while the other joined limit columns of the
same row are all populated (`UCL`/`LCL` collapse onto the center,
`UCL_MR`/`LCL_MR` onto 0, since `Sigma = 0` forces `MRbar = 0`). -/
theorem c6_sigma_zero_z_undefined (bf : InFrame) (mp : ℕ) (L : List LimitRec)
    (hL : compute_imr_limits bf mp = Except.ok L)
    (f : InFrame) (out : List ScoredRow)
    (hout : score_imr_points f L = Except.ok out)
    (r : ScoredRow) (hr : r ∈ out) (hs : r.Sigma = some 0) :
    r.z = none ∧ r.UCL = some r.Xbar ∧ r.LCL = some r.Xbar ∧
    r.UCL_MR = some 0 ∧ r.LCL_MR = some 0 := by
  rcases score_imr_points_ok_cases f L out hout with rfl | rfl
  · exact absurd hr (List.not_mem_nil r)
  · obtain ⟨p, Lr, mr, hLr, rfl⟩ := scoreCore_elim (cleanRows f.rows) L r hr
    rcases compute_imr_limits_ok_cases bf mp L hL with ⟨_, rfl⟩ | rfl
    · exact absurd hLr (List.not_mem_nil Lr)
    · obtain ⟨a, _, _, rfl⟩ := limitsCore_elim (cleanRows bf.rows) mp Lr hLr
      have hSig : (mkScored p (extendLimits a) mr).Sigma =
          a.MRbar.map (fun m => m / D2_MR2) := rfl
      rw [hSig] at hs
      obtain ⟨m, hm, hm0⟩ := Option.map_eq_some'.mp hs
      have hmz : m = 0 := by
        rcases div_eq_zero_iff.mp hm0 with h | h
        · exact h
        · exact absurd h (by norm_num [D2_MR2])
      subst hmz
      refine ⟨?_, ?_, ?_, ?_, ?_⟩ <;>
        norm_num [mkScored, extendLimits, hm, D2_MR2]

/-- Baseline frame for the C6 witness: two identical values, hence
`MRbar = 0` and `Sigma = 0`. -/
def c6Base : InFrame :=
  { cols := ["STEP_ID", "DateTime", "FinalTorque"]
    rows := [⟨some 1, some 0, some 10⟩, ⟨some 1, some 1, some 10⟩] }

/-- The sigma-zero limits record `compute_imr_limits` produces on
`c6Base`. -/
def c6Lim : LimitRec := extendLimits ⟨1, 2, 10, some 0⟩

/-- Evaluation frame for the C6 witness. -/
def c6Eval : InFrame :=
  { cols := ["STEP_ID", "DateTime", "FinalTorque"]
    rows := [⟨some 1, some 5, some 99⟩] }

/-- The scored row of the C6 witness. -/
def c6Row : ScoredRow := mkScored ⟨1, 5, 99⟩ c6Lim none

/-- C6 -- witness: a concrete scored point of a sigma-zero group has
undefined z-score and populated limit columns. -/
theorem c6_witness :
    c6Row.z = none ∧ c6Row.UCL = some c6Row.Xbar ∧ c6Row.LCL = some c6Row.Xbar ∧
    c6Row.UCL_MR = some 0 ∧ c6Row.LCL_MR = some 0 :=
  c6_sigma_zero_z_undefined c6Base 2 [c6Lim]
    (by
      norm_num [compute_imr_limits, c6Base, missingFrom, imrRequiredCols, key_col,
        time_col, value_col, limitsCore, imrAggs, cleanRows, sortRows, stableSort,
        ordInsert, rowLE, addMR, keysInOrder, mkImrAgg, qmean, omean, c6Lim,
        List.lookup, List.filterMap_cons, List.isEmpty])
    c6Eval [c6Row]
    (by
      norm_num [score_imr_points, c6Eval, missingFrom, imrRequiredCols, key_col,
        time_col, value_col, scoreCore, cleanRows, sortRows, stableSort, ordInsert,
        rowLE, addMR, List.lookup, List.filterMap_cons, List.flatMap_cons,
        List.filter_cons, c6Row, c6Lim, extendLimits])
    c6Row (List.mem_singleton.mpr rfl)
    (by norm_num [c6Row, c6Lim, mkScored, extendLimits, D2_MR2])

/-- Non-empty evaluation frame missing the value column, for the C4
counterexample. -/
def c4Frame : InFrame :=
  { cols := ["STEP_ID", "DateTime"]
    rows := [⟨some 1, some 0, some 10⟩] }

/-- A (contentless) limits record so that the limits table of the C4
counterexample is non-empty. -/
def c4Lim : LimitRec := ⟨1, 1, 0, none, none, none, none, none, none⟩

/-- Non-empty scored frame missing the `is_alert` and `rule` columns, for
the C4 counterexample. -/
def c4SFrame : ScoredFrame :=
  { cols := ["STEP_ID", "DateTime"]
    rows := [⟨1, some 0, true, Rule.I_3SIGMA⟩] }

/-- C4 -- counterexample: the scoring operation and the alert aggregation
operation DO raise a missing-column error on non-empty inputs missing a
required column (`score_imr_points` line 92-95, `build_spc_alerts_from_points`
line 137-140 of analysis/spc.py), contradicting the claim that only the two
validating operations fail on missing required columns. -/
theorem c4_counterexample :
    score_imr_points c4Frame [c4Lim] = Except.error ["FinalTorque"] ∧
    build_spc_alerts_from_points c4SFrame = Except.error ["is_alert", "rule"] := by
  constructor
  · simp +decide [score_imr_points, c4Frame, missingFrom, imrRequiredCols, key_col,
      time_col, value_col]
  · simp +decide [build_spc_alerts_from_points, c4SFrame, missingFrom,
      alertsRequiredCols, key_col, time_col]

/-- C4 (amended): all four operations fail with the missing-column list on
a non-empty input missing required columns (for `score_imr_points` only
when the limits table is also non-empty, since both empty-input checks come
first); empty or absent inputs yield empty outputs with the column check
skipped. -/
theorem c4_missing_column_behaviour :
    (∀ (f : InFrame) (mp : ℕ), f.rows ≠ [] →
        missingFrom imrRequiredCols f.cols ≠ [] →
        compute_imr_limits f mp =
          Except.error (missingFrom imrRequiredCols f.cols)) ∧
    (∀ (f : InFrame) (mp : ℕ), f.rows = [] →
        compute_imr_limits f mp = Except.ok []) ∧
    (∀ (f : InFrame) (L : List LimitRec), f.rows ≠ [] → L ≠ [] →
        missingFrom imrRequiredCols f.cols ≠ [] →
        score_imr_points f L =
          Except.error (missingFrom imrRequiredCols f.cols)) ∧
    (∀ (f : InFrame) (L : List LimitRec), f.rows = [] ∨ L = [] →
        score_imr_points f L = Except.ok []) ∧
    (∀ f : ScoredFrame, f.rows ≠ [] →
        missingFrom alertsRequiredCols f.cols ≠ [] →
        build_spc_alerts_from_points f =
          Except.error (missingFrom alertsRequiredCols f.cols)) ∧
    (∀ f : ScoredFrame, f.rows = [] →
        build_spc_alerts_from_points f =
          Except.ok { cols := alertBaseCols, recs := [] }) ∧
    (∀ (f : CapFrame) (mp : ℕ) (mmr : Option ℕ), f.rows ≠ [] →
        missingFrom capRequiredCols f.cols ≠ [] →
        compute_capability_v1 f mp mmr =
          Except.error (missingFrom capRequiredCols f.cols)) ∧
    (∀ (f : CapFrame) (mp : ℕ) (mmr : Option ℕ), f.rows = [] →
        compute_capability_v1 f mp mmr = Except.ok []) := by
  refine ⟨?_, ?_, ?_, ?_, ?_, ?_, ?_, ?_⟩
  · intro f mp hne hm
    have he : f.rows.isEmpty = false := by simpa [List.isEmpty_iff] using hne
    have hm2 : (missingFrom imrRequiredCols f.cols).isEmpty = false := by
      simpa [List.isEmpty_iff] using hm
    simp [compute_imr_limits, he, hm2]
  · intro f mp he
    simp [compute_imr_limits, he]
  · intro f L hne hL hm
    have he : f.rows.isEmpty = false := by simpa [List.isEmpty_iff] using hne
    have hL2 : L.isEmpty = false := by simpa [List.isEmpty_iff] using hL
    have hm2 : (missingFrom imrRequiredCols f.cols).isEmpty = false := by
      simpa [List.isEmpty_iff] using hm
    simp [score_imr_points, he, hL2, hm2]
  · intro f L h
    rcases h with he | hL
    · simp [score_imr_points, he]
    · by_cases he : f.rows.isEmpty
      · simp [score_imr_points, he]
      · simp [score_imr_points, he, hL]
  · intro f hne hm
    have he : f.rows.isEmpty = false := by simpa [List.isEmpty_iff] using hne
    have hm2 : (missingFrom alertsRequiredCols f.cols).isEmpty = false := by
      simpa [List.isEmpty_iff] using hm
    simp [build_spc_alerts_from_points, he, hm2]
  · intro f he
    simp [build_spc_alerts_from_points, he]
  · intro f mp mmr hne hm
    have he : f.rows.isEmpty = false := by simpa [List.isEmpty_iff] using hne
    have hm2 : (missingFrom capRequiredCols f.cols).isEmpty = false := by
      simpa [List.isEmpty_iff] using hm
    simp [compute_capability_v1, he, hm2]
  · intro f mp mmr he
    simp [compute_capability_v1, he]

/-- C4 -- witness: the amended behaviour at concrete inputs: a limits call
on a one-row frame having only the key column errors with the two missing
columns, and empty scorer/aggregator inputs yield empty outputs. -/
theorem c4_witness :
    compute_imr_limits ⟨["STEP_ID"], [⟨some 1, some 0, some 1⟩]⟩ 5 =
      Except.error (missingFrom imrRequiredCols ["STEP_ID"]) ∧
    score_imr_points ⟨["STEP_ID"], []⟩ [] = Except.ok [] ∧
    build_spc_alerts_from_points ⟨[], []⟩ =
      Except.ok { cols := alertBaseCols, recs := [] } ∧
    compute_capability_v1 ⟨[], []⟩ 3 none = Except.ok [] := by
  refine ⟨?_, ?_, ?_, ?_⟩
  · exact c4_missing_column_behaviour.1 ⟨["STEP_ID"], [⟨some 1, some 0, some 1⟩]⟩ 5
      (by simp) (by simp +decide [missingFrom, imrRequiredCols, key_col, time_col,
        value_col])
  · exact c4_missing_column_behaviour.2.2.2.1 ⟨["STEP_ID"], []⟩ [] (Or.inl rfl)
  · exact c4_missing_column_behaviour.2.2.2.2.2.1 ⟨[], []⟩ rfl
  · exact c4_missing_column_behaviour.2.2.2.2.2.2.2 ⟨[], []⟩ 3 none rfl

/-- C5 -- counterexample: on an empty (or None) scored-points input the
aggregator returns the empty frame with only the five base columns; the
`I_3SIGMA`/`MR_3SIGMA` columns are NOT present, contradicting the claim for
the empty-input case (the source's early return at line 134-135 of
analysis/spc.py bypasses the column-ensuring step). -/
theorem c5_counterexample :
    build_spc_alerts_from_points
        ⟨["STEP_ID", "DateTime", "is_alert", "rule"], []⟩ =
      Except.ok { cols := alertBaseCols, recs := [] } ∧
    "I_3SIGMA" ∉ alertBaseCols ∧ "MR_3SIGMA" ∉ alertBaseCols := by
  refine ⟨by simp [build_spc_alerts_from_points], ?_, ?_⟩
  · simp +decide [alertBaseCols, key_col]
  · simp +decide [alertBaseCols, key_col]

/-- C5 (amended): for every NON-EMPTY scored-points input (empty/None
inputs return only the five base columns, see the counterexample), the
output table contains both rule columns `I_3SIGMA` and `MR_3SIGMA`, and
each output record's per-rule count equals the number of that group's
alert rows carrying that rule -- 0 rather than an omitted column when the
rule never fired. -/
theorem c5_rule_columns (f : ScoredFrame) (out : AlertTable)
    (hne : f.rows ≠ []) (hout : build_spc_alerts_from_points f = Except.ok out) :
    ("I_3SIGMA" ∈ out.cols ∧ "MR_3SIGMA" ∈ out.cols) ∧
    (∀ rec ∈ out.recs,
        rec.I_3SIGMA = f.rows.countP
          (fun r => r.key == rec.key && r.is_alert && r.rule == Rule.I_3SIGMA) ∧
        rec.MR_3SIGMA = f.rows.countP
          (fun r => r.key == rec.key && r.is_alert && r.rule == Rule.MR_3SIGMA)) := by
  have he : f.rows.isEmpty = false := by simpa [List.isEmpty_iff] using hne
  rw [build_spc_alerts_from_points, if_neg (by simp [he])] at hout
  by_cases hm : (missingFrom alertsRequiredCols f.cols).isEmpty
  · simp only [hm, if_pos] at hout
    have hagg : out = aggCore f.rows := ((Except.ok.injEq _ _).mp hout).symm
    subst hagg
    constructor
    · constructor
      · show "I_3SIGMA" ∈ (aggCore f.rows).cols
        simp only [aggCore]
        by_cases h0 : (alertBaseCols ++
            pivotRuleCols (f.rows.filter (fun r => r.is_alert))).contains "I_3SIGMA"
        · have hmem : "I_3SIGMA" ∈ alertBaseCols ++
              pivotRuleCols (f.rows.filter (fun r => r.is_alert)) := by
            simpa using h0
          rw [if_pos h0]
          by_cases h1 : ((alertBaseCols ++
              pivotRuleCols (f.rows.filter (fun r => r.is_alert)))).contains "MR_3SIGMA"
          · rw [if_pos h1]; exact hmem
          · rw [if_neg h1]; exact List.mem_append_left _ hmem
        · rw [if_neg h0]
          have hmem : "I_3SIGMA" ∈ (alertBaseCols ++
              pivotRuleCols (f.rows.filter (fun r => r.is_alert))) ++ ["I_3SIGMA"] :=
            List.mem_append_right _ (by simp)
          by_cases h1 : ((alertBaseCols ++
              pivotRuleCols (f.rows.filter (fun r => r.is_alert))) ++
                ["I_3SIGMA"]).contains "MR_3SIGMA"
          · rw [if_pos h1]; exact hmem
          · rw [if_neg h1]; exact List.mem_append_left _ hmem
      · show "MR_3SIGMA" ∈ (aggCore f.rows).cols
        simp only [aggCore]
        by_cases h0 : (alertBaseCols ++
            pivotRuleCols (f.rows.filter (fun r => r.is_alert))).contains "I_3SIGMA"
        · rw [if_pos h0]
          by_cases h1 : ((alertBaseCols ++
              pivotRuleCols (f.rows.filter (fun r => r.is_alert)))).contains "MR_3SIGMA"
          · rw [if_pos h1]; simpa using h1
          · rw [if_neg h1]; exact List.mem_append_right _ (by simp)
        · rw [if_neg h0]
          by_cases h1 : ((alertBaseCols ++
              pivotRuleCols (f.rows.filter (fun r => r.is_alert))) ++
                ["I_3SIGMA"]).contains "MR_3SIGMA"
          · rw [if_pos h1]; simpa using h1
          · rw [if_neg h1]; exact List.mem_append_right _ (by simp)
    · intro rec hrec
      have hrec2 : rec ∈ ((keysInOrder SPoint.key [] f.rows).map
          (fun k => mkAlertRec k (f.rows.filter (fun r => r.key == k)))).filter
            (fun a => decide (0 < a.n_alerts)) := hrec
      obtain ⟨hrec3, _⟩ := List.mem_filter.mp hrec2
      obtain ⟨k, _, rfl⟩ := List.mem_map.mp hrec3
      have hkey : (mkAlertRec k (f.rows.filter (fun r => r.key == k))).key = k := rfl
      rw [hkey]
      constructor
      · show ((f.rows.filter (fun r => r.key == k)).filter
            (fun r => r.is_alert)).countP (fun r => r.rule == Rule.I_3SIGMA) = _
        rw [List.countP_filter, List.countP_filter]
        apply List.countP_congr
        intro a _
        cases h1 : a.key == k <;> cases h2 : a.is_alert <;>
          cases h3 : a.rule == Rule.I_3SIGMA <;> simp [h1, h2, h3]
      · show ((f.rows.filter (fun r => r.key == k)).filter
            (fun r => r.is_alert)).countP (fun r => r.rule == Rule.MR_3SIGMA) = _
        rw [List.countP_filter, List.countP_filter]
        apply List.countP_congr
        intro a _
        cases h1 : a.key == k <;> cases h2 : a.is_alert <;>
          cases h3 : a.rule == Rule.MR_3SIGMA <;> simp [h1, h2, h3]
  · rw [if_neg hm] at hout
    exact absurd hout (by simp)

/-- Scored frame for the C5 witness: one group with 3 alert rows all ruled
`I_3SIGMA` and none ruled `MR_3SIGMA` (the example of the spec). -/
def c5Frame : ScoredFrame :=
  { cols := ["STEP_ID", "DateTime", "is_alert", "rule"]
    rows := [⟨1, some 0, true, Rule.I_3SIGMA⟩, ⟨1, some 1, true, Rule.I_3SIGMA⟩,
             ⟨1, some 2, true, Rule.I_3SIGMA⟩] }

/-- The alert record the aggregator produces on `c5Frame`. -/
def c5Rec : AlertRec := ⟨1, 3, 3, some 0, some 2, 3, 0⟩

/-- The alert table the aggregator produces on `c5Frame`: the `MR_3SIGMA`
column is appended with value 0 although the rule never fired. -/
def c5Out : AlertTable :=
  { cols := ["STEP_ID", "n_points", "n_alerts", "first_alert", "last_alert",
             "I_3SIGMA", "MR_3SIGMA"]
    recs := [c5Rec] }

/-- C5 -- witness: on the spec's example the output has both rule columns
and the record carries `I_3SIGMA = 3`, `MR_3SIGMA = 0`. -/
theorem c5_witness :
    ("I_3SIGMA" ∈ c5Out.cols ∧ "MR_3SIGMA" ∈ c5Out.cols) ∧
    c5Rec.I_3SIGMA = 3 ∧ c5Rec.MR_3SIGMA = 0 := by
  have heval : build_spc_alerts_from_points c5Frame = Except.ok c5Out := by
    simp +decide [build_spc_alerts_from_points, c5Frame, missingFrom,
      alertsRequiredCols, key_col, time_col, aggCore, keysInOrder, mkAlertRec,
      pivotRuleCols, listMin?, listMax?, alertBaseCols, c5Out, c5Rec,
      List.filter_cons, List.countP_cons, List.filterMap_cons]
  have h := c5_rule_columns c5Frame c5Out (by simp [c5Frame]) heval
  refine ⟨h.1, ?_, ?_⟩
  · have h2 := (h.2 c5Rec (by simp [c5Out])).1
    rw [h2]
    decide
  · have h2 := (h.2 c5Rec (by simp [c5Out])).2
    rw [h2]
    decide

/-- In an `ok` result, `compute_capability_v1` either took the empty-input
branch or computed `capCore` on the cleaned rows with the defaulted
`min_mr`. -/
theorem compute_capability_ok_cases (f : CapFrame) (mp : ℕ) (mmr : Option ℕ)
    (out : List CapRec) (h : compute_capability_v1 f mp mmr = Except.ok out) :
    (f.rows = [] ∧ out = []) ∨
    out = capCore (cleanCap f.rows) mp (mmr.getD (max (mp - 1) 1)) := by
  by_cases he : f.rows.isEmpty
  · rw [compute_capability_v1, if_pos he] at h
    exact Or.inl ⟨List.isEmpty_iff.mp he, (Except.ok.injEq _ _).mp h |>.symm⟩
  · simp only [compute_capability_v1, if_neg he] at h
    by_cases hm : (missingFrom capRequiredCols f.cols).isEmpty
    · rw [if_pos hm] at h
      exact Or.inr ((Except.ok.injEq _ _).mp h).symm
    · rw [if_neg hm] at h
      exact absurd h (by simp)

/-- Unpacking of one record of `capCore`: its statistics are those of the
value sequence `gvs` of its group in the sorted cleaned baseline. -/
theorem capCore_elim (xs : List CapClean) (mp mmr : ℕ) (r : CapRec)
    (hr : r ∈ capCore xs mp mmr) :
    ∃ a : CapStat, r = finishCap a ∧ mp ≤ a.N ∧ mmr ≤ a.n_mr ∧
      ∃ k gvs, (∃ row ∈ xs, row.key = k) ∧
        gvs = ((sortCap xs).filter (fun row => row.key == k)).map CapClean.value ∧
        gvs ≠ [] ∧
        a.key = k ∧ a.N = gvs.length ∧ a.mean = qmean gvs ∧
        a.std_overall_sq = sampleVar gvs ∧
        a.mrbar = omean ((diffsFrom none gvs).filterMap id) ∧
        a.n_mr = ((diffsFrom none gvs).filterMap id).length := by
  simp only [capCore, List.mem_map, List.mem_filter] at hr
  obtain ⟨a, ⟨ha, hflt⟩, hre⟩ := hr
  obtain ⟨k, hk, hae⟩ := ha
  obtain ⟨_, row, hrow, hrowk⟩ := (mem_keysInOrder CapClean.key (sortCap xs) [] k).mp hk
  have hNle : mp ≤ a.N ∧ mmr ≤ a.n_mr := by
    have := hflt
    simp only [Bool.and_eq_true, decide_eq_true_eq] at this
    exact this
  refine ⟨a, hre.symm, hNle.1, hNle.2,
    k, ((sortCap xs).filter (fun row => row.key == k)).map CapClean.value,
    ⟨row, (stableSort_perm capLE xs).mem_iff.mp hrow, hrowk⟩, rfl, ?_, ?_, ?_, ?_, ?_, ?_, ?_⟩
  · have hrf : row ∈ (sortCap xs).filter (fun row => row.key == k) :=
      List.mem_filter.mpr ⟨hrow, by simp [hrowk]⟩
    intro hcon
    rw [List.map_eq_nil_iff] at hcon
    rw [hcon] at hrf
    exact absurd hrf (List.not_mem_nil row)
  · rw [← hae]
    rfl
  · rw [← hae]
    show ((addMR CapClean.key CapClean.value [] (sortCap xs)).filter
        (fun p => p.1.key == k)).length = _
    rw [addMR_group_length CapClean.key CapClean.value k (sortCap xs) [],
      List.length_map]
  · rw [← hae]
    show qmean (((addMR CapClean.key CapClean.value [] (sortCap xs)).filter
        (fun p => p.1.key == k)).map (fun p => p.1.value)) = _
    rw [addMR_group_vals CapClean.key CapClean.value k (sortCap xs) []]
  · rw [← hae]
    show sampleVar (((addMR CapClean.key CapClean.value [] (sortCap xs)).filter
        (fun p => p.1.key == k)).map (fun p => p.1.value)) = _
    rw [addMR_group_vals CapClean.key CapClean.value k (sortCap xs) []]
  · rw [← hae]
    show omean (((addMR CapClean.key CapClean.value [] (sortCap xs)).filter
        (fun p => p.1.key == k)).filterMap (fun p => p.2)) = _
    rw [group_filterMap_snd,
      addMR_filter_snd CapClean.key CapClean.value k (sortCap xs) []]
    rfl
  · rw [← hae]
    show (((addMR CapClean.key CapClean.value [] (sortCap xs)).filter
        (fun p => p.1.key == k)).filterMap (fun p => p.2)).length = _
    rw [group_filterMap_snd,
      addMR_filter_snd CapClean.key CapClean.value k (sortCap xs) []]
    rfl

/-- C9: every record of the capability output satisfies `n_mr = N - 1`
(one fewer defined moving range than retained points).  This holds
unconditionally for the cleaned per-group data -- in particular under the
claim's premise that no input value of the group is missing. -/
theorem c9_nmr_eq_n_minus_one (f : CapFrame) (mp : ℕ) (mmr : Option ℕ)
    (out : List CapRec) (hout : compute_capability_v1 f mp mmr = Except.ok out)
    (r : CapRec) (hr : r ∈ out) :
    r.n_mr = r.N - 1 ∧ r.n_mr + 1 = r.N := by
  rcases compute_capability_ok_cases f mp mmr out hout with ⟨_, rfl⟩ | rfl
  · exact absurd hr (List.not_mem_nil r)
  · obtain ⟨a, rfl, _, _, k, gvs, _, _, hgne, _, hN, _, _, _, hnmr⟩ :=
      capCore_elim _ _ _ r hr
    have h1 : (finishCap a).n_mr = a.n_mr := rfl
    have h2 : (finishCap a).N = a.N := rfl
    have h3 : a.n_mr = gvs.length - 1 := by
      rw [hnmr, defined_diffsFrom_none]
    have h4 : 1 ≤ gvs.length := by
      rcases List.length_pos.mpr hgne with h
      omega
    rw [h1, h2, h3, hN]
    omega

/-- Baseline frame for the C9 witness: one group, two points, no missing
value. -/
def c9Frame : CapFrame :=
  { cols := ["STEP_ID", "DateTime", "FinalTorque", "TorqueMinTolerance",
             "TorqueMaxTolerance"]
    rows := [⟨some 1, some 0, some 10, some 8, some 12⟩,
             ⟨some 1, some 1, some 11, some 8, some 12⟩] }

/-- The per-group aggregate `compute_capability_v1` builds on `c9Frame`. -/
def c9Stat : CapStat := ⟨1, 2, 21/2, some (1/2), some 1, 1, 8, 12, 1, 1⟩

/-- The capability record produced on `c9Frame`. -/
def c9Rec : CapRec := finishCap c9Stat

/-- C9 -- witness: the concrete record has `N = 2` points and
`n_mr = 1 = N - 1` defined moving ranges. -/
theorem c9_witness : c9Rec.n_mr = c9Rec.N - 1 ∧ c9Rec.n_mr + 1 = c9Rec.N :=
  c9_nmr_eq_n_minus_one c9Frame 2 none [c9Rec]
    (by
      norm_num [compute_capability_v1, c9Frame, missingFrom, capRequiredCols,
        key_col, time_col, value_col, lsl_col, usl_col, capCore, cleanCap, sortCap,
        stableSort, ordInsert, capLE, addMR, keysInOrder, mkCapStat, sampleVar,
        qmean, omean, median, qLE, c9Rec, c9Stat, List.lookup, List.filterMap_cons,
        List.filter_cons, List.getD, List.isEmpty])
    c9Rec (List.mem_singleton.mpr rfl)

theorem finishCap_tol_span (a : CapStat) :
    (finishCap a).tol_span = a.usl_med - a.lsl_med := rfl

theorem finishCap_std (a : CapStat) :
    (finishCap a).std_overall_sq = a.std_overall_sq := rfl

theorem finishCap_sigma_within (a : CapStat) :
    (finishCap a).sigma_within = a.mrbar.map (fun m => m / D2_MR2) := rfl

theorem finishCap_Pp_isSome (a : CapStat) :
    (finishCap a).Pp.isSome ↔
      (0 < a.usl_med - a.lsl_med ∧ ∃ v, a.std_overall_sq = some v ∧ 0 < v) := by
  cases hv : a.std_overall_sq with
  | none => simp [finishCap, hv]
  | some v =>
    by_cases ht : 0 < a.usl_med - a.lsl_med <;> by_cases hpv : 0 < v <;>
      simp [finishCap, hv, ht, hpv]

theorem finishCap_Ppk_isSome (a : CapStat) :
    (finishCap a).Ppk.isSome ↔
      (0 < a.usl_med - a.lsl_med ∧ ∃ v, a.std_overall_sq = some v ∧ 0 < v) := by
  cases hv : a.std_overall_sq with
  | none => simp [finishCap, hv]
  | some v =>
    by_cases ht : 0 < a.usl_med - a.lsl_med <;> by_cases hpv : 0 < v <;>
      simp [finishCap, hv, ht, hpv]

theorem finishCap_Cp_isSome (a : CapStat) :
    (finishCap a).Cp.isSome ↔
      (0 < a.usl_med - a.lsl_med ∧
        ∃ s, a.mrbar.map (fun m => m / D2_MR2) = some s ∧ 0 < s) := by
  cases hm : a.mrbar with
  | none => simp [finishCap, hm]
  | some m =>
    by_cases ht : 0 < a.usl_med - a.lsl_med <;> by_cases hpm : 0 < m / D2_MR2 <;>
      simp [finishCap, hm, ht, hpm]

theorem finishCap_Cpk_isSome (a : CapStat) :
    (finishCap a).Cpk.isSome ↔
      (0 < a.usl_med - a.lsl_med ∧
        ∃ s, a.mrbar.map (fun m => m / D2_MR2) = some s ∧ 0 < s) := by
  cases hm : a.mrbar with
  | none => simp [finishCap, hm]
  | some m =>
    by_cases ht : 0 < a.usl_med - a.lsl_med <;> by_cases hpm : 0 < m / D2_MR2 <;>
      simp [finishCap, hm, ht, hpm]

theorem finishCap_tol_nonpos (a : CapStat) (h : a.usl_med - a.lsl_med ≤ 0) :
    (finishCap a).Pp = none ∧ (finishCap a).Ppk = none ∧
    (finishCap a).Cp = none ∧ (finishCap a).Cpk = none := by
  have ht : ¬ 0 < a.usl_med - a.lsl_med := not_lt.mpr h
  simp [finishCap, ht]

/-- All values equal to the mean iff all moving ranges are zero: the bridge
between the overall (variance) and within (moving-range) sigma estimates of
one group. -/
theorem all_eq_mean_iff_diffs_zero (v : ℚ) (rest : List ℚ) :
    (∀ x ∈ v :: rest, x = qmean (v :: rest)) ↔
      (∀ d ∈ (diffsFrom none (v :: rest)).filterMap id, d = 0) := by
  have hdleq : (diffsFrom none (v :: rest)).filterMap id =
      (diffsFrom (some v) rest).filterMap id := rfl
  rw [hdleq, diffsFrom_zero_iff]
  constructor
  · intro hall u hu
    have hv : v = qmean (v :: rest) := hall v (List.mem_cons_self _ _)
    rw [hall u (List.mem_cons_of_mem _ hu)]
    exact hv.symm
  · intro hz
    have hallv : ∀ x ∈ v :: rest, x = v := by
      intro x hx
      rcases List.mem_cons.mp hx with rfl | hx2
      · rfl
      · exact hz x hx2
    have hm : qmean (v :: rest) = v :=
      qmean_const (v :: rest) v hallv (by simp)
    intro x hx
    rw [hallv x hx, hm]

/-- For a non-empty group value sequence IN EXACT ARITHMETIC, the overall
validity mask (`std_overall` defined and positive, i.e. positive sample
variance) holds iff the within validity mask (`sigma_within = mrbar/d2`
defined and positive) does: both fail exactly on single-point groups and on
groups of all-identical values.  This equivalence is a property of the
exact-rational idealization and NOT of the floating-point source, where the
two-pass variance of a constant series can round to a small positive value
while consecutive `diff`s are exactly zero. -/
theorem overall_within_coincide (gvs : List ℚ) (hne : gvs ≠ []) :
    (∃ V, sampleVar gvs = some V ∧ 0 < V) ↔
      (∃ s, (omean ((diffsFrom none gvs).filterMap id)).map
          (fun m => m / D2_MR2) = some s ∧ 0 < s) := by
  obtain ⟨v, rest, rfl⟩ := List.exists_cons_of_ne_nil hne
  cases rest with
  | nil =>
    constructor
    · rintro ⟨V, hV, _⟩
      rw [sampleVar, if_pos (by simp)] at hV
      exact absurd hV (by simp)
    · rintro ⟨s, hs, _⟩
      have h0 : (diffsFrom none [v]).filterMap id = ([] : List ℚ) := rfl
      rw [h0] at hs
      exact absurd hs (by simp [omean])
  | cons w rest2 =>
    have hlen : 2 ≤ (v :: w :: rest2).length := by simp
    have hV : sampleVar (v :: w :: rest2) =
        some (((v :: w :: rest2).map
            (fun x => (x - qmean (v :: w :: rest2)) ^ 2)).sum /
          (((v :: w :: rest2).length : ℚ) - 1)) := by
      rw [sampleVar, if_neg (by omega)]
    have hdlne : (diffsFrom none (v :: w :: rest2)).filterMap id ≠ [] := by
      have h1 := defined_diffsFrom_none (v :: w :: rest2)
      intro hcon
      rw [hcon] at h1
      simp at h1
    have hmb : omean ((diffsFrom none (v :: w :: rest2)).filterMap id) =
        some (qmean ((diffsFrom none (v :: w :: rest2)).filterMap id)) :=
      omean_of_ne_nil _ hdlne
    rw [hV, hmb]
    have hmap : (some (qmean ((diffsFrom none (v :: w :: rest2)).filterMap id))).map
        (fun m => m / D2_MR2) =
        some (qmean ((diffsFrom none (v :: w :: rest2)).filterMap id) / D2_MR2) := rfl
    rw [hmap]
    simp only [Option.some.injEq]
    have hred1 : (∃ V, (((v :: w :: rest2).map
          (fun x => (x - qmean (v :: w :: rest2)) ^ 2)).sum /
            (((v :: w :: rest2).length : ℚ) - 1)) = V ∧ 0 < V) ↔
        0 < ((v :: w :: rest2).map
          (fun x => (x - qmean (v :: w :: rest2)) ^ 2)).sum /
            (((v :: w :: rest2).length : ℚ) - 1) := by
      constructor
      · rintro ⟨V, rfl, hC⟩; exact hC
      · intro hC; exact ⟨_, rfl, hC⟩
    have hred2 : (∃ s, qmean ((diffsFrom none (v :: w :: rest2)).filterMap id) /
          D2_MR2 = s ∧ 0 < s) ↔
        0 < qmean ((diffsFrom none (v :: w :: rest2)).filterMap id) / D2_MR2 := by
      constructor
      · rintro ⟨s, rfl, hC⟩; exact hC
      · intro hC; exact ⟨_, rfl, hC⟩
    rw [hred1, hred2]
    have hn1 : (0 : ℚ) < ((v :: w :: rest2).length : ℚ) - 1 := by
      have : (2 : ℚ) ≤ ((v :: w :: rest2).length : ℚ) := by exact_mod_cast hlen
      linarith
    have hD2 : (0 : ℚ) < D2_MR2 := by norm_num [D2_MR2]
    rw [div_pos_iff_of_pos_right hn1, div_pos_iff_of_pos_right hD2]
    have hsqnn : ∀ y ∈ (v :: w :: rest2).map
        (fun x => (x - qmean (v :: w :: rest2)) ^ 2), 0 ≤ y := by
      intro y hy
      obtain ⟨x, _, rfl⟩ := List.mem_map.mp hy
      exact sq_nonneg _
    have hsum0 : ((v :: w :: rest2).map
        (fun x => (x - qmean (v :: w :: rest2)) ^ 2)).sum = 0 ↔
        ∀ x ∈ v :: w :: rest2, x = qmean (v :: w :: rest2) := by
      rw [sum_eq_zero_iff_of_nonneg _ hsqnn]
      constructor
      · intro h x hx
        have := h _ (List.mem_map_of_mem _ hx)
        have h2 := pow_eq_zero_iff (n := 2) (by norm_num) |>.mp this
        linarith [sub_eq_zero.mp h2]
      · intro h y hy
        obtain ⟨x, hx, rfl⟩ := List.mem_map.mp hy
        rw [h x hx]
        ring
    have hlhs : 0 < ((v :: w :: rest2).map
        (fun x => (x - qmean (v :: w :: rest2)) ^ 2)).sum ↔
        ¬ ∀ x ∈ v :: w :: rest2, x = qmean (v :: w :: rest2) := by
      have hs : 0 ≤ ((v :: w :: rest2).map
          (fun x => (x - qmean (v :: w :: rest2)) ^ 2)).sum :=
        List.sum_nonneg hsqnn
      rw [hs.lt_iff_ne, ← hsum0]
      constructor
      · intro h hc; exact h hc.symm
      · intro h hc; exact h hc.symm
    have hrhs : 0 < qmean ((diffsFrom none (v :: w :: rest2)).filterMap id) ↔
        ¬ ∀ d ∈ (diffsFrom none (v :: w :: rest2)).filterMap id, d = 0 :=
      qmean_pos_iff_of_nonneg _ (diffsFrom_nonneg none _) hdlne
    rw [hlhs, hrhs, all_eq_mean_iff_diffs_zero]

/-- Gating facts for one record of a capability result, as they hold in
this exact-arithmetic model: the per-metric masks, the all-undefined
consequence of a non-positive tolerance span, and the coincidence of the
two sigma masks on one group's exact data.  The last two conjuncts are
facts of the idealization only: in the floating-point source the two-pass
`std` can be positive on a constant series by rounding while the moving
ranges are exactly zero, separating the masks (see
`overall_within_coincide`). -/
theorem capRec_gating (f : CapFrame) (mp : ℕ) (mmr : Option ℕ)
    (out : List CapRec) (hout : compute_capability_v1 f mp mmr = Except.ok out)
    (rec : CapRec) (hrec : rec ∈ out) :
    (rec.Pp.isSome ↔ rec.Ppk.isSome) ∧
    (rec.Cp.isSome ↔ rec.Cpk.isSome) ∧
    (rec.Pp.isSome ↔
      (0 < rec.tol_span ∧ ∃ v, rec.std_overall_sq = some v ∧ 0 < v)) ∧
    (rec.Cp.isSome ↔
      (0 < rec.tol_span ∧ ∃ s, rec.sigma_within = some s ∧ 0 < s)) ∧
    (rec.tol_span ≤ 0 →
      rec.Pp = none ∧ rec.Ppk = none ∧ rec.Cp = none ∧ rec.Cpk = none) ∧
    ((∃ v, rec.std_overall_sq = some v ∧ 0 < v) ↔
      (∃ s, rec.sigma_within = some s ∧ 0 < s)) ∧
    (rec.Pp.isSome ↔ rec.Cp.isSome) := by
  rcases compute_capability_ok_cases f mp mmr out hout with ⟨_, rfl⟩ | rfl
  · exact absurd hrec (List.not_mem_nil rec)
  · obtain ⟨a, rfl, _, _, k, gvs, _, _, hgne, _, _, _, hstd, hmrb, _⟩ :=
      capCore_elim _ _ _ rec hrec
    have h3 : (finishCap a).Pp.isSome ↔
        (0 < (finishCap a).tol_span ∧
          ∃ v, (finishCap a).std_overall_sq = some v ∧ 0 < v) := by
      rw [finishCap_tol_span, finishCap_std]
      exact finishCap_Pp_isSome a
    have h4 : (finishCap a).Cp.isSome ↔
        (0 < (finishCap a).tol_span ∧
          ∃ s, (finishCap a).sigma_within = some s ∧ 0 < s) := by
      rw [finishCap_tol_span, finishCap_sigma_within]
      exact finishCap_Cp_isSome a
    have h6 : (∃ v, (finishCap a).std_overall_sq = some v ∧ 0 < v) ↔
        (∃ s, (finishCap a).sigma_within = some s ∧ 0 < s) := by
      rw [finishCap_std, finishCap_sigma_within, hstd, hmrb]
      exact overall_within_coincide gvs hgne
    refine ⟨(finishCap_Pp_isSome a).trans (finishCap_Ppk_isSome a).symm,
      (finishCap_Cp_isSome a).trans (finishCap_Cpk_isSome a).symm,
      h3, h4, ?_, h6, ?_⟩
    · intro h
      rw [finishCap_tol_span] at h
      exact finishCap_tol_nonpos a h
    · rw [h3, h4]
      exact and_congr_right fun _ => h6
